import Mathlib

/-!
Verification of the swarm-show choreography core (`sbstudio`): shallow
embedding of the proximity-geometry module (`sbstudio/plugin/math/nearest_neighbors.py`),
the deterministic random sequence (`sbstudio/plugin/math/rng.py`), the
storyboard timeline model (`sbstudio/plugin/model/storyboard.py`) and the
transition scheduler (`sbstudio/plugin/operators/recalculate_transitions.py`).

Modelling conventions:
* Python floats are embedded as exact rationals (`ℚ`); the claims under
  study concern exact comparisons and small-integer arithmetic where IEEE
  doubles behave like the reals.
* `random.Random.randint(0, max)` draws are abstracted by a function
  `F : ℕ → ℕ → ℕ` giving the k-th draw of a generator seeded with `s` as
  `F s k`; Python's `randint` is inclusive on both ends, so a faithful
  draw family satisfies `F s k ≤ max` and every value in `[0, max]` is a
  possible draw.
* Fallible code is embedded with `Except`; Python's `None` results become
  `Option`.
-/

namespace SbStudio

/-! ## `sbstudio/plugin/math/rng.py` — `RandomSequence`

The mutable object holds a seed-determined generator and a growing cache.
The generator is abstracted by the draw family `F`; instance state is the
seed together with the cache of already-generated values.  `max` is the
inclusive ceiling passed to `randint`. -/

structure RSState where
  seed : ℕ
  maxVal : ℕ
  cache : List ℕ
  deriving Repr, DecidableEq

/-- `RandomSequence.__init__(seed=seed, max=max)`: empty cache. -/
def RSState.init (seed maxVal : ℕ) : RSState :=
  ⟨seed, maxVal, []⟩

/-- One iteration of the `while` loop in `_ensure_length_is_at_least`:
append `self._rng.randint(0, self._max)`, i.e. the next sequential draw
`F seed (len cache)`. -/
def RSState.appendNext (F : ℕ → ℕ → ℕ) (s : RSState) : RSState :=
  { s with cache := s.cache ++ [F s.seed s.cache.length] }

/-- `k` iterations of the append loop. -/
def RSState.extendBy (F : ℕ → ℕ → ℕ) (s : RSState) : ℕ → RSState
  | 0 => s
  | k + 1 => RSState.extendBy F (RSState.appendNext F s) k

/-- `RandomSequence._ensure_length_is_at_least(length)`: the `while` loop
runs until `len(self._cache) >= length`. -/
def RSState.ensureLengthIsAtLeast (F : ℕ → ℕ → ℕ) (s : RSState) (length : ℕ) : RSState :=
  RSState.extendBy F s (length - s.cache.length)

/-- `RandomSequence.__getitem__(index)`: extend the cache on demand, then
read the cached value.  Returns the new state and the value. -/
def RSState.getItem (F : ℕ → ℕ → ℕ) (s : RSState) (index : ℕ) : RSState × ℕ :=
  let s' := if s.cache.length ≤ index then RSState.ensureLengthIsAtLeast F s (index + 1) else s
  (s', s'.cache.getD index 0)

/-- `RandomSequence.get(index)` is an alias of `__getitem__`. -/
def RSState.get (F : ℕ → ℕ → ℕ) (s : RSState) (index : ℕ) : RSState × ℕ :=
  RSState.getItem F s index

/-- `RandomSequence.get_float(index)`: `self[index] / self.max`. -/
def RSState.getFloat (F : ℕ → ℕ → ℕ) (s : RSState) (index : ℕ) : RSState × ℚ :=
  let r := RSState.getItem F s index
  (r.1, (r.2 : ℚ) / (s.maxVal : ℚ))

/-- `RandomSequence.fork(index)`: a fresh sequence seeded with `self[index]`,
same ceiling, empty cache.  Returns the (possibly extended) parent state and
the fork. -/
def RSState.fork (F : ℕ → ℕ → ℕ) (s : RSState) (index : ℕ) : RSState × RSState :=
  let r := RSState.getItem F s index
  (r.1, RSState.init r.2 s.maxVal)

/-- Run a finite sequence of index queries against the object (the state
effect of `get`, `__getitem__` and `fork` on the queried object is the same:
extend the cache up to the queried index). -/
def RSState.runQueries (F : ℕ → ℕ → ℕ) (s : RSState) (qs : List ℕ) : RSState :=
  qs.foldl (fun s i => (RSState.getItem F s i).1) s

/-- Cache length needed after serving the queries `qs` starting from an
empty cache. -/
def neededLength (qs : List ℕ) : ℕ :=
  qs.foldl (fun m i => max m (i + 1)) 0

lemma RSState.extendBy_cache (F : ℕ → ℕ → ℕ) (seed maxVal : ℕ) :
    ∀ (k L : ℕ),
      RSState.extendBy F ⟨seed, maxVal, (List.range L).map (F seed)⟩ k =
        ⟨seed, maxVal, (List.range (L + k)).map (F seed)⟩ := by
  intro k
  induction k with
  | zero => intro L; simp [RSState.extendBy]
  | succ n ih =>
    intro L
    have h1 : RSState.appendNext F ⟨seed, maxVal, (List.range L).map (F seed)⟩ =
        ⟨seed, maxVal, (List.range (L + 1)).map (F seed)⟩ := by
      simp [RSState.appendNext, List.range_succ]
    rw [RSState.extendBy, h1, ih (L + 1)]
    have h2 : L + 1 + n = L + (n + 1) := by omega
    rw [h2]

lemma getD_map_range {α : Type} (f : ℕ → α) (n i : ℕ) (h : i < n) (d : α) :
    ((List.range n).map f).getD i d = f i := by
  rw [List.getD_eq_getElem?_getD, List.getElem?_map, List.getElem?_range h]
  rfl

/-- Invariant: a state reachable from `init seed maxVal` has cache
`(range L).map (F seed)` for some `L`; `getItem` preserves the invariant and
returns `F seed index`. -/
lemma RSState.getItem_of_canonical (F : ℕ → ℕ → ℕ) (seed maxVal L index : ℕ) :
    RSState.getItem F ⟨seed, maxVal, (List.range L).map (F seed)⟩ index =
      (⟨seed, maxVal, (List.range (max L (index + 1))).map (F seed)⟩, F seed index) := by
  have hlen : ((List.range L).map (F seed)).length = L := by simp
  unfold RSState.getItem RSState.ensureLengthIsAtLeast
  by_cases h : L ≤ index
  · have hext := RSState.extendBy_cache F seed maxVal (index + 1 - L) L
    have hL : L + (index + 1 - L) = index + 1 := by omega
    rw [hL] at hext
    simp only [hlen, if_pos h, hext]
    have hM : max L (index + 1) = index + 1 := by omega
    rw [hM]
    exact Prod.ext rfl (getD_map_range _ _ _ (by omega) _)
  · simp only [hlen, if_neg h]
    have hM : max L (index + 1) = L := by omega
    rw [hM]
    exact Prod.ext rfl (getD_map_range _ _ _ (by omega) _)

lemma RSState.runQueries_canonical (F : ℕ → ℕ → ℕ) (seed maxVal : ℕ) (qs : List ℕ) :
    ∀ L : ℕ,
      RSState.runQueries F ⟨seed, maxVal, (List.range L).map (F seed)⟩ qs =
        ⟨seed, maxVal, (List.range (qs.foldl (fun m i => max m (i + 1)) L)).map (F seed)⟩ := by
  induction qs with
  | nil => intro L; simp [RSState.runQueries]
  | cons q rest ih =>
    intro L
    unfold RSState.runQueries
    rw [List.foldl_cons, RSState.getItem_of_canonical]
    exact ih (max L (q + 1))

lemma RSState.runQueries_init (F : ℕ → ℕ → ℕ) (seed maxVal : ℕ) (qs : List ℕ) :
    RSState.runQueries F (RSState.init seed maxVal) qs =
      ⟨seed, maxVal, (List.range (neededLength qs)).map (F seed)⟩ := by
  have h0 : RSState.init seed maxVal = ⟨seed, maxVal, (List.range 0).map (F seed)⟩ := by
    simp [RSState.init]
  rw [h0, RSState.runQueries_canonical]
  rfl

lemma foldl_max_out (qs : List ℕ) : ∀ a : ℕ,
    qs.foldl (fun m i => max m (i + 1)) a = max a (qs.foldl (fun m i => max m (i + 1)) 0) := by
  induction qs with
  | nil => intro a; simp
  | cons q rest ih =>
    intro a
    rw [List.foldl_cons, List.foldl_cons, ih (max a (q + 1)), ih (max 0 (q + 1))]
    omega

lemma neededLength_cons (q : ℕ) (rest : List ℕ) :
    neededLength (q :: rest) = max (q + 1) (neededLength rest) := by
  unfold neededLength
  rw [List.foldl_cons, foldl_max_out]
  omega

lemma neededLength_append_one (qs : List ℕ) (q : ℕ) :
    neededLength (qs ++ [q]) = max (neededLength qs) (q + 1) := by
  unfold neededLength
  rw [List.foldl_append, List.foldl_cons, List.foldl_nil]

lemma neededLength_reverse (qs : List ℕ) : neededLength qs.reverse = neededLength qs := by
  induction qs with
  | nil => rfl
  | cons q rest ih =>
    rw [List.reverse_cons, neededLength_append_one, ih, neededLength_cons]
    omega

/-- C5: For every seed and every two finite sequences of index queries, the
value a `RandomSequence` yields for index `i` is the same in both runs —
a function of `(seed, i)` only; querying in reverse order produces the same
final cache contents as querying in forward order; re-querying an
already-generated index returns the same value; and a fork taken at index
`i` has a stream determined by `(seed, i)` alone, so regenerating index `i`
on the parent after `fork(i)` leaves the fork's stream unchanged (the fork
taken after the regeneration is identical to the one taken before). -/
theorem randomSequence_reproducible (F : ℕ → ℕ → ℕ) (seed maxVal : ℕ)
    (qs qs' : List ℕ) (i j : ℕ) :
    (RSState.getItem F (RSState.runQueries F (RSState.init seed maxVal) qs) i).2 = F seed i
    ∧ (RSState.getItem F (RSState.runQueries F (RSState.init seed maxVal) qs') i).2 =
        (RSState.getItem F (RSState.runQueries F (RSState.init seed maxVal) qs) i).2
    ∧ (RSState.runQueries F (RSState.init seed maxVal) qs.reverse).cache =
        (RSState.runQueries F (RSState.init seed maxVal) qs).cache
    ∧ (RSState.getItem F (RSState.runQueries F (RSState.init seed maxVal) (qs ++ [i])) i).2 =
        (RSState.getItem F (RSState.runQueries F (RSState.init seed maxVal) qs) i).2
    ∧ (RSState.fork F (RSState.runQueries F (RSState.init seed maxVal) qs) i).2 =
        (RSState.fork F
          (RSState.getItem F
            (RSState.fork F (RSState.runQueries F (RSState.init seed maxVal) qs) i).1 i).1
          i).2
    ∧ (RSState.getItem F
        (RSState.fork F (RSState.runQueries F (RSState.init seed maxVal) qs) i).2 j).2 =
        F (F seed i) j := by
  have hq := RSState.runQueries_init F seed maxVal qs
  have hq' := RSState.runQueries_init F seed maxVal qs'
  have hqr := RSState.runQueries_init F seed maxVal qs.reverse
  have hqi := RSState.runQueries_init F seed maxVal (qs ++ [i])
  refine ⟨?_, ?_, ?_, ?_, ?_, ?_⟩
  · rw [hq, RSState.getItem_of_canonical]
  · rw [hq, hq', RSState.getItem_of_canonical, RSState.getItem_of_canonical]
  · rw [hq, hqr, neededLength_reverse]
  · rw [hq, hqi, RSState.getItem_of_canonical, RSState.getItem_of_canonical]
  · unfold RSState.fork
    rw [hq, RSState.getItem_of_canonical]
    simp only
    rw [RSState.getItem_of_canonical, RSState.getItem_of_canonical]
  · unfold RSState.fork
    rw [hq, RSState.getItem_of_canonical]
    simp only
    have h0 : RSState.init (F seed i) maxVal =
        ⟨F seed i, maxVal, (List.range 0).map (F (F seed i))⟩ := by
      simp [RSState.init]
    rw [h0, RSState.getItem_of_canonical]

/-- C8 counterexample: Python's `random.Random.randint(0, max)` is inclusive
on both ends, so a draw equal to `max` itself is possible; for such a draw
`get_float` returns exactly `1.0`, which is outside `[0, 1)`.  The draw
family below (every draw equals the ceiling `1`) is a legitimate `randint`
outcome, yet `get_float(0) = 1`. -/
theorem get_float_counterexample :
    (RSState.getFloat (fun _ _ => 1) (RSState.init 0 1) 0).2 = 1
    ∧ ¬ ((RSState.getFloat (fun _ _ => 1) (RSState.init 0 1) 0).2 < 1) := by
  have h0 : RSState.init 0 1 = ⟨0, 1, (List.range 0).map ((fun _ _ => 1 : ℕ → ℕ → ℕ) 0)⟩ := by
    simp [RSState.init]
  have hv : (RSState.getFloat (fun _ _ => 1) (RSState.init 0 1) 0).2 = 1 := by
    unfold RSState.getFloat
    rw [h0, RSState.getItem_of_canonical]
    norm_num [RSState.init]
  exact ⟨hv, by rw [hv]; exact lt_irrefl 1⟩

/-- C8 (amended): for every `RandomSequence` with ceiling `max > 0` whose
draws respect `randint`'s inclusive range `[0, max]`, `get_float(i)` returns
`get(i) / max`, and this value lies in the closed interval `[0, 1]` (it can
equal `1.0` exactly when the draw equals `max`). -/
theorem get_float_in_unit_interval (F : ℕ → ℕ → ℕ) (seed maxVal : ℕ)
    (qs : List ℕ) (i : ℕ) (hmax : 0 < maxVal) (hF : ∀ k, F seed k ≤ maxVal) :
    (RSState.getFloat F (RSState.runQueries F (RSState.init seed maxVal) qs) i).2 =
      ((RSState.get F (RSState.runQueries F (RSState.init seed maxVal) qs) i).2 : ℚ) / maxVal
    ∧ 0 ≤ (RSState.getFloat F (RSState.runQueries F (RSState.init seed maxVal) qs) i).2
    ∧ (RSState.getFloat F (RSState.runQueries F (RSState.init seed maxVal) qs) i).2 ≤ 1 := by
  have hq := RSState.runQueries_init F seed maxVal qs
  have hval :
      (RSState.getItem F (RSState.runQueries F (RSState.init seed maxVal) qs) i).2 = F seed i := by
    rw [hq, RSState.getItem_of_canonical]
  have hmaxq : (RSState.runQueries F (RSState.init seed maxVal) qs).maxVal = maxVal := by
    rw [hq]
  refine ⟨?_, ?_, ?_⟩
  · unfold RSState.getFloat RSState.get
    rw [hmaxq]
  · unfold RSState.getFloat
    rw [hmaxq]
    positivity
  · simp only [RSState.getFloat]
    rw [hmaxq, hval]
    rw [div_le_one (by exact_mod_cast hmax)]
    exact_mod_cast hF i

/-- Witness for the C8 amended theorem at a concrete input. -/
theorem get_float_in_unit_interval_witness :
    (RSState.getFloat (fun _ _ => 0) (RSState.runQueries (fun _ _ => 0) (RSState.init 0 2) []) 0).2 =
      ((RSState.get (fun _ _ => 0) (RSState.runQueries (fun _ _ => 0) (RSState.init 0 2) []) 0).2 : ℚ) / 2
    ∧ 0 ≤ (RSState.getFloat (fun _ _ => 0) (RSState.runQueries (fun _ _ => 0) (RSState.init 0 2) []) 0).2
    ∧ (RSState.getFloat (fun _ _ => 0) (RSState.runQueries (fun _ _ => 0) (RSState.init 0 2) []) 0).2 ≤ 1 := by
  have h := get_float_in_unit_interval (fun _ _ => 0) 0 2 [] 0 (by decide) (fun k => Nat.zero_le 2)
  exact_mod_cast h

/-! ## `sbstudio/plugin/operators/recalculate_transitions.py` — per-drone
time windows

`update_transition_for_storyboard_entry` computes, for each drone with a
constraint, a `(windup_start_frame, start_frame)` window.  The straight-line
per-drone block is embedded below; the drone's departure index (traced
through the previous mapping), its arrival index and the number of
transitioning drones arrive as inputs, exactly as they are consumed by the
block.  Delay fields are Blender `FloatProperty`s (embedded as `ℚ`);
override delays are `IntProperty`s with `min=0` (embedded as `ℕ`). -/

inductive TransitionSchedule where
  | synchronized
  | staggered
  deriving Repr, DecidableEq

/-- `ScheduleOverride` property group from `sbstudio/plugin/model/storyboard.py`. -/
structure ScheduleOverride where
  enabled : Bool
  index : ℕ
  pre_delay : ℕ
  post_delay : ℕ
  deriving Repr, DecidableEq

/-- The fields of `StoryboardEntry` consumed by the per-drone scheduling
block. -/
structure EntrySched where
  name : String
  frame_start : ℤ
  transition_schedule : TransitionSchedule
  pre_delay_per_drone_in_frames : ℚ
  post_delay_per_drone_in_frames : ℚ
  schedule_overrides : List ScheduleOverride
  schedule_overrides_enabled : Bool
  deriving Repr, DecidableEq

/-- `StoryboardEntry.is_staggered`. -/
def EntrySched.is_staggered (e : EntrySched) : Bool :=
  e.transition_schedule = TransitionSchedule.staggered

/-- `StoryboardEntry.get_enabled_schedule_override_map()` as a lookup
function: the Python dict keeps, for each index, the last enabled override
inserted with that index, and is empty when overrides are disabled. -/
def EntrySched.overrideMap (e : EntrySched) (i : ℕ) : Option ScheduleOverride :=
  if e.schedule_overrides_enabled then
    (e.schedule_overrides.filter (fun o => o.enabled)).reverse.find? (fun o => o.index == i)
  else none

/-- Truthiness of `schedule_override_map` (`if schedule_override_map:`):
overrides enabled and at least one override entry enabled. -/
def EntrySched.overrideMapNonempty (e : EntrySched) : Bool :=
  e.schedule_overrides_enabled && e.schedule_overrides.any (fun o => o.enabled)

lemma overrideMap_some_nonempty (e : EntrySched) (i : ℕ) (o : ScheduleOverride)
    (h : e.overrideMap i = some o) : e.overrideMapNonempty = true := by
  unfold EntrySched.overrideMap at h
  by_cases he : e.schedule_overrides_enabled
  · rw [if_pos he] at h
    have hmem := List.mem_of_find?_eq_some h
    rw [List.mem_reverse, List.mem_filter] at hmem
    unfold EntrySched.overrideMapNonempty
    rw [he]
    simp only [Bool.true_and, List.any_eq_true]
    exact ⟨o, hmem.1, hmem.2⟩
  · rw [if_neg he] at h
    exact absurd h (by simp)

/-- The `(departure_delay, arrival_delay)` pair computed by the per-drone
block of `update_transition_for_storyboard_entry`: the staggered formula
first, then the schedule override (when the map is non-empty and holds the
drone's departure index) fully replacing both values. -/
def computeDelays (e : EntrySched) (numTransitioning departureIndex arrivalIndex : ℕ) :
    ℚ × ℚ :=
  let staggered : ℚ × ℚ :=
    if e.is_staggered then
      (e.pre_delay_per_drone_in_frames * departureIndex,
       -e.post_delay_per_drone_in_frames *
         (((numTransitioning : ℤ) - (arrivalIndex : ℤ) - 1 : ℤ) : ℚ))
    else (0, 0)
  if e.overrideMapNonempty then
    match e.overrideMap departureIndex with
    | some o => ((o.pre_delay : ℚ), -(o.post_delay : ℚ))
    | none => staggered
  else staggered

/-- `windup_start_frame += departure_delay; start_frame += arrival_delay`:
the pair `(windup_start_frame, start_frame)` before the first-entry collapse
and the causality check. -/
def computedWindupAndStart (e : EntrySched) (endOfPrevious : ℚ)
    (numTransitioning departureIndex arrivalIndex : ℕ) : ℚ × ℚ :=
  let d := computeDelays e numTransitioning departureIndex arrivalIndex
  (endOfPrevious + d.1, (e.frame_start : ℚ) + d.2)

/-- Payload of the `SkybrushStudioError` raised by the causality check: the
message names the entry and the 1-based drone index. -/
structure CausalityError where
  entry_name : String
  drone_index_one_based : ℕ
  deriving Repr, DecidableEq

/-- The tail of the per-drone block: first-entry collapse to the scene start
frame, otherwise the causality check (`windup_start_frame >= start_frame`
raises), else the computed window. -/
def computeDroneWindow (e : EntrySched) (hasPrevious : Bool) (endOfPrevious : ℚ)
    (startOfScene : ℤ) (numTransitioning departureIndex arrivalIndex droneIndex : ℕ) :
    Except CausalityError (ℚ × ℚ) :=
  let ws := computedWindupAndStart e endOfPrevious numTransitioning departureIndex arrivalIndex
  if hasPrevious then
    if ws.2 ≤ ws.1 then Except.error ⟨e.name, droneIndex + 1⟩
    else Except.ok ws
  else Except.ok ((startOfScene : ℚ), (startOfScene : ℚ))

/-- C3: For a staggered entry, each drone's `windup_start_frame` is the
previous entry's end frame plus `pre_delay_per_drone × departure_rank` (and
its `start_frame` is the entry start minus
`post_delay_per_drone × (num_transitioning − arrival_rank − 1)`); when a
drone's departure rank has an enabled schedule override, the override's
`(pre_delay, post_delay)` replaces both formula offsets for that rank, while
ranks with no override entry keep the formula values. -/
theorem staggered_schedule_offsets (e : EntrySched) (endOfPrevious : ℚ)
    (numTransitioning dep arr : ℕ)
    (hs : e.transition_schedule = TransitionSchedule.staggered) :
    (e.overrideMap dep = none →
      computedWindupAndStart e endOfPrevious numTransitioning dep arr =
        (endOfPrevious + e.pre_delay_per_drone_in_frames * dep,
         (e.frame_start : ℚ) - e.post_delay_per_drone_in_frames *
           (((numTransitioning : ℤ) - (arr : ℤ) - 1 : ℤ) : ℚ)))
    ∧ (∀ o : ScheduleOverride, e.overrideMap dep = some o →
      computedWindupAndStart e endOfPrevious numTransitioning dep arr =
        (endOfPrevious + (o.pre_delay : ℚ), (e.frame_start : ℚ) - (o.post_delay : ℚ))) := by
  have hstag : e.is_staggered = true := by
    unfold EntrySched.is_staggered
    rw [hs]
    simp
  constructor
  · intro hnone
    unfold computedWindupAndStart computeDelays
    rw [hstag]
    simp only [if_true]
    by_cases hne : e.overrideMapNonempty
    · rw [if_pos hne, hnone]
      simp only
      ring_nf
    · rw [if_neg hne]
      simp only
      ring_nf
  · intro o hsome
    unfold computedWindupAndStart computeDelays
    rw [if_pos (overrideMap_some_nonempty e dep o hsome), hsome]
    simp only
    ring_nf

/-- Witness for C3 at the spec's example: 3 transitioning drones,
`pre_delay_per_drone = 5`, previous end frame 0, entry start 100, and an
enabled override for rank 1 with `pre_delay = 100`: ranks 0 and 2 keep the
formula offsets 0 and 10, rank 1 gets 100. -/
theorem staggered_schedule_offsets_witness :
    (computedWindupAndStart
        (EntrySched.mk "Formation" 100 TransitionSchedule.staggered 5 0
          [ScheduleOverride.mk true 1 100 0] true) 0 3 0 0).1 = 0
    ∧ (computedWindupAndStart
        (EntrySched.mk "Formation" 100 TransitionSchedule.staggered 5 0
          [ScheduleOverride.mk true 1 100 0] true) 0 3 1 1).1 = 100
    ∧ (computedWindupAndStart
        (EntrySched.mk "Formation" 100 TransitionSchedule.staggered 5 0
          [ScheduleOverride.mk true 1 100 0] true) 0 3 2 2).1 = 10 := by
  have h0 := (staggered_schedule_offsets
    (EntrySched.mk "Formation" 100 TransitionSchedule.staggered 5 0
      [ScheduleOverride.mk true 1 100 0] true) 0 3 0 0 rfl).1 (by decide)
  have h1 := (staggered_schedule_offsets
    (EntrySched.mk "Formation" 100 TransitionSchedule.staggered 5 0
      [ScheduleOverride.mk true 1 100 0] true) 0 3 1 1 rfl).2
    (ScheduleOverride.mk true 1 100 0) (by decide)
  have h2 := (staggered_schedule_offsets
    (EntrySched.mk "Formation" 100 TransitionSchedule.staggered 5 0
      [ScheduleOverride.mk true 1 100 0] true) 0 3 2 2 rfl).1 (by decide)
  refine ⟨?_, ?_, ?_⟩
  · rw [h0]; norm_num
  · rw [h1]; norm_num
  · rw [h2]; norm_num

/-- C4: for a drone of an entry that is not the first of the timeline, the
recalculation fails with an error naming the entry and the 1-based drone
index exactly when the computed `windup_start_frame` is `≥` the computed
`start_frame`; for the first entry of the timeline, both frames collapse to
the scene start frame regardless of staggering and no error is raised. -/
theorem causality_check (e : EntrySched) (hasPrevious : Bool) (endOfPrevious : ℚ)
    (startOfScene : ℤ) (numTransitioning dep arr droneIndex : ℕ) :
    (hasPrevious = true →
      ((computedWindupAndStart e endOfPrevious numTransitioning dep arr).2 ≤
          (computedWindupAndStart e endOfPrevious numTransitioning dep arr).1 ↔
        computeDroneWindow e hasPrevious endOfPrevious startOfScene
            numTransitioning dep arr droneIndex =
          Except.error ⟨e.name, droneIndex + 1⟩)
      ∧ ((computedWindupAndStart e endOfPrevious numTransitioning dep arr).1 <
          (computedWindupAndStart e endOfPrevious numTransitioning dep arr).2 →
        computeDroneWindow e hasPrevious endOfPrevious startOfScene
            numTransitioning dep arr droneIndex =
          Except.ok (computedWindupAndStart e endOfPrevious numTransitioning dep arr)))
    ∧ (hasPrevious = false →
      computeDroneWindow e hasPrevious endOfPrevious startOfScene
          numTransitioning dep arr droneIndex =
        Except.ok ((startOfScene : ℚ), (startOfScene : ℚ))) := by
  constructor
  · intro hp
    subst hp
    constructor
    · constructor
      · intro hge
        unfold computeDroneWindow
        simp only [if_true]
        rw [if_pos hge]
      · intro herr
        unfold computeDroneWindow at herr
        simp only [if_true] at herr
        by_cases hge : (computedWindupAndStart e endOfPrevious numTransitioning dep arr).2 ≤
            (computedWindupAndStart e endOfPrevious numTransitioning dep arr).1
        · exact hge
        · rw [if_neg hge] at herr
          exact absurd herr (by simp)
    · intro hlt
      unfold computeDroneWindow
      simp only [if_true]
      rw [if_neg (not_le.mpr hlt)]
  · intro hp
    subst hp
    unfold computeDroneWindow
    simp

/-- Witness for C4: a concrete non-first entry whose staggered delay makes
`windup_start_frame = 12 ≥ start_frame = 10` fails for drone index 0 with
the entry name and 1-based index 1; the same entry as first entry collapses
to the scene start. -/
theorem causality_check_witness :
    ((10 : ℚ) ≤ 12 ↔
      computeDroneWindow
          (EntrySched.mk "Tight" 10 TransitionSchedule.staggered 6 0 [] false)
          true 0 0 3 2 2 0 =
        Except.error ⟨"Tight", 1⟩) := by
  have h := ((causality_check
    (EntrySched.mk "Tight" 10 TransitionSchedule.staggered 6 0 [] false)
    true 0 0 3 2 2 0).1 rfl).1
  have hws : computedWindupAndStart
      (EntrySched.mk "Tight" 10 TransitionSchedule.staggered 6 0 [] false) 0 3 2 2 =
      (12, 10) := by
    unfold computedWindupAndStart computeDelays EntrySched.overrideMapNonempty
      EntrySched.is_staggered
    norm_num
  rw [hws] at h
  exact h

/-- C10: enabled schedule overrides apply even to synchronized
(non-staggered) entries: a drone whose departure index has an enabled
override gets `windup_start_frame = end_of_previous + pre_delay` and
`start_frame = entry_start − post_delay`, while drones with no override
entry keep the unstaggered synchronized window
`(end_of_previous, entry_start)`. -/
theorem synchronized_overrides_apply (e : EntrySched) (endOfPrevious : ℚ)
    (numTransitioning dep arr : ℕ)
    (hs : e.transition_schedule = TransitionSchedule.synchronized) :
    (∀ o : ScheduleOverride, e.overrideMap dep = some o →
      computedWindupAndStart e endOfPrevious numTransitioning dep arr =
        (endOfPrevious + (o.pre_delay : ℚ), (e.frame_start : ℚ) - (o.post_delay : ℚ)))
    ∧ (e.overrideMap dep = none →
      computedWindupAndStart e endOfPrevious numTransitioning dep arr =
        (endOfPrevious, (e.frame_start : ℚ))) := by
  have hstag : e.is_staggered = false := by
    unfold EntrySched.is_staggered
    rw [hs]
    simp
  constructor
  · intro o hsome
    unfold computedWindupAndStart computeDelays
    rw [if_pos (overrideMap_some_nonempty e dep o hsome), hsome]
    simp only
    ring_nf
  · intro hnone
    unfold computedWindupAndStart computeDelays
    rw [hstag]
    simp only [Bool.false_eq_true, if_false]
    by_cases hne : e.overrideMapNonempty
    · rw [if_pos hne, hnone]
      simp only
      ring_nf
    · rw [if_neg hne]
      simp only
      ring_nf

/-- Witness for C10: a synchronized entry with an enabled override at
index 0 (`pre_delay = 7`, `post_delay = 2`): the overridden drone's window
shifts to `(3 + 7, 50 − 2)`, a drone with departure index 1 keeps
`(3, 50)`. -/
theorem synchronized_overrides_apply_witness :
    computedWindupAndStart
        (EntrySched.mk "Sync" 50 TransitionSchedule.synchronized 0 0
          [ScheduleOverride.mk true 0 7 2] true) 3 4 0 0 =
      (3 + ((7 : ℕ) : ℚ), ((50 : ℤ) : ℚ) - ((2 : ℕ) : ℚ))
    ∧ computedWindupAndStart
        (EntrySched.mk "Sync" 50 TransitionSchedule.synchronized 0 0
          [ScheduleOverride.mk true 0 7 2] true) 3 4 1 1 =
      (3, ((50 : ℤ) : ℚ)) := by
  constructor
  · exact (synchronized_overrides_apply
      (EntrySched.mk "Sync" 50 TransitionSchedule.synchronized 0 0
        [ScheduleOverride.mk true 0 7 2] true) 3 4 0 0 rfl).1
      (ScheduleOverride.mk true 0 7 2) (by decide)
  · exact (synchronized_overrides_apply
      (EntrySched.mk "Sync" 50 TransitionSchedule.synchronized 0 0
        [ScheduleOverride.mk true 0 7 2] true) 3 4 1 1 rfl).2 (by decide)

/-! ## `InfluenceCurveDescriptor.apply`

The keyframe list handed to `set_keyframes` plus the handle styling applied
afterwards.  `set_keyframes(..., interpolation="LINEAR")` returns one
keyframe object per input `(frame, value)` pair in order, all with linear
interpolation; `apply` then restyles the keyframe object at index
`start_of_transition` (recorded *before* the `(frame, 1.0)` transition
point is appended, i.e. the index of the last zero-value keyframe) unless
the windup type is `LINEAR`.  Handle types of untouched keyframes keep the
host default, embedded as `none`. -/

inductive WindupType where
  | linear
  | smoothFromLeft
  | smoothFromRight
  | smooth
  deriving Repr, DecidableEq

inductive Interpolation where
  | linear
  | bezier
  deriving Repr, DecidableEq

inductive HandleType where
  | autoClamped
  | vector
  deriving Repr, DecidableEq

structure Keyframe where
  frame : ℤ
  value : ℚ
  interpolation : Interpolation
  handle_left : Option HandleType
  handle_right : Option HandleType
  deriving Repr, DecidableEq

/-- `InfluenceCurveDescriptor` (fields already rounded to integers by the
constructor). -/
structure InfluenceCurveDescriptor where
  scene_start_frame : ℤ
  windup_start_frame : Option ℤ
  start_frame : ℤ
  end_frame : Option ℤ
  windup_type : WindupType
  deriving Repr, DecidableEq

/-- The `(frame, value)` list built by `apply` together with
`start_of_transition` (the index recorded just before appending the
transition keyframe). -/
def InfluenceCurveDescriptor.keyframesAndTransitionIndex
    (d : InfluenceCurveDescriptor) : List (ℤ × ℚ) × ℕ :=
  let is_first := d.scene_start_frame = d.start_frame
  let k0 : List (ℤ × ℚ) := [(d.scene_start_frame - (if is_first then 1 else 0), 0)]
  let k1 : List (ℤ × ℚ) :=
    match d.windup_start_frame with
    | some w =>
        if ¬is_first ∧ w > d.scene_start_frame then
          k0 ++ [(w, (k0.getLastD (0, 0)).2)]
        else k0
    | none => k0
  let frame := max d.start_frame ((k1.getLastD (0, 0)).1 + 1)
  let startOfTransition := k1.length - 1
  let k2 := k1 ++ [(frame, 1)]
  let k3 :=
    match d.end_frame with
    | some ef =>
        let e := max ef frame
        if e > frame then k2 ++ [(e, 1)] else k2
    | none => k2
  (k3, startOfTransition)

/-- `InfluenceCurveDescriptor.apply`: the keyframe objects as returned by
`set_keyframes` (linear interpolation everywhere) with the transition-start
keyframe restyled according to the windup type. -/
def InfluenceCurveDescriptor.applyKeyframes
    (d : InfluenceCurveDescriptor) : List Keyframe :=
  let r := d.keyframesAndTransitionIndex
  let base : List Keyframe :=
    r.1.map (fun fv => ⟨fv.1, fv.2, Interpolation.linear, none, none⟩)
  if d.windup_type = WindupType.linear then base
  else
    base.mapIdx (fun i kf =>
      if i = r.2 then
        { kf with
          interpolation := Interpolation.bezier
          handle_right := some (if d.windup_type = WindupType.smoothFromRight then
            HandleType.vector else HandleType.autoClamped)
          handle_left := some (if d.windup_type = WindupType.smoothFromLeft then
            HandleType.vector else HandleType.autoClamped) }
      else kf)

/-- C7 counterexample: for the descriptor
`scene_start_frame=0, windup_start_frame=None, start_frame=10,
end_frame=None, windup_type=Smooth` the produced keyframes are
`[(0, 0.0), (10, 1.0)]`, but the Bezier/auto-clamped styling is applied to
the keyframe at index `start_of_transition = 0` (the frame-0 keyframe), not
to the frame-10 keyframe, which keeps linear interpolation and untouched
handles. -/
theorem influence_curve_counterexample :
    ((InfluenceCurveDescriptor.applyKeyframes
        (InfluenceCurveDescriptor.mk 0 none 10 none WindupType.smooth)).getD 1
        (Keyframe.mk 0 0 Interpolation.linear none none)).interpolation ≠
      Interpolation.bezier := by
  decide

/-- C7 (amended): for the descriptor
`scene_start_frame=0, windup_start_frame=None, start_frame=10,
end_frame=None, windup_type=Smooth` exactly two keyframes are produced —
`(0, 0.0)` and `(10, 1.0)` — with no trailing fade-out keyframe; the
auto-smoothed Bezier styling (both handles auto-clamped) is applied to the
keyframe at the recorded `start_of_transition` index, which is the last
zero-value keyframe at frame 0, while the frame-10 keyframe keeps linear
interpolation. -/
theorem influence_curve_example :
    InfluenceCurveDescriptor.applyKeyframes
        (InfluenceCurveDescriptor.mk 0 none 10 none WindupType.smooth) =
      [Keyframe.mk 0 0 Interpolation.bezier
        (some HandleType.autoClamped) (some HandleType.autoClamped),
       Keyframe.mk 10 1 Interpolation.linear none none] := by
  decide

/-! ## `sbstudio/plugin/model/storyboard.py` — timeline validation and
reordering

`Storyboard.validate_and_sort_entries` sorts by `(frame_start, frame_end)`
and then runs `_validate_entry_sequence` (a single loop over adjacent pairs
that checks overlap and then purpose order *at each pair*) followed by
`_validate_formation_size_contraints` (marker count vs. drone count, per
entry).  The drone count comes from the external drones collection and is a
parameter here.  On a purpose violation the source builds its message via
`StoryboardEntryPurpose[entry_purpose]` with an enum member (not a name),
which itself raises; the embedding records the violation as a
purpose-order validation failure carrying the two purposes and does not
model the message construction. -/

inductive Purpose where
  | takeoff
  | show'
  | landing
  deriving Repr, DecidableEq

/-- `StoryboardEntryPurpose.order`: Takeoff = 1, Show = 2, Landing = 3. -/
def Purpose.order : Purpose → ℕ
  | Purpose.takeoff => 1
  | Purpose.show' => 2
  | Purpose.landing => 3

/-- The fields of `StoryboardEntry` consumed by validation and reordering.
`formation_markers` is `none` when the entry has no formation, otherwise
`count_markers_in_formation(formation)`. -/
structure SBEntry where
  name : String
  frame_start : ℤ
  duration : ℤ
  purpose : Purpose
  formation_markers : Option ℕ
  deriving Repr, DecidableEq

/-- `frame_end = frame_start + duration - 1`. -/
def SBEntry.frame_end (e : SBEntry) : ℤ :=
  e.frame_start + e.duration - 1

/-- The lexicographic order on the sort key
`attrgetter("frame_start", "frame_end")`. -/
def entryKeyLE (a b : SBEntry) : Prop :=
  a.frame_start < b.frame_start ∨
    (a.frame_start = b.frame_start ∧ a.frame_end ≤ b.frame_end)

instance (a b : SBEntry) : Decidable (entryKeyLE a b) := by
  unfold entryKeyLE
  infer_instance

/-- `entries.sort(key=attrgetter("frame_start", "frame_end"))`: a stable
sort by the lexicographic key (embedded with insertion sort, one
implementation of Python's stable sort). -/
def sortEntries (es : List SBEntry) : List SBEntry :=
  es.insertionSort entryKeyLE

/-- `entry.frame_end >= next_entry.frame_start`. -/
def pairOverlap (a b : SBEntry) : Prop :=
  b.frame_start ≤ a.frame_end

/-- `entry_purpose.order > next_purpose.order`. -/
def pairPurposeViolation (a b : SBEntry) : Prop :=
  b.purpose.order < a.purpose.order

instance (a b : SBEntry) : Decidable (pairOverlap a b) := by
  unfold pairOverlap
  infer_instance

instance (a b : SBEntry) : Decidable (pairPurposeViolation a b) := by
  unfold pairPurposeViolation
  infer_instance

inductive ValidationError where
  | overlap (name : String) (index_one_based : ℕ) (frame : ℤ) (next_name : String)
  | purposeOrder (purpose next_purpose : Purpose)
  | capacity (name : String) (num_markers num_drones : ℕ)
  deriving Repr, DecidableEq

/-- `Storyboard._validate_entry_sequence`: one pass over adjacent pairs of
the sorted list; at each pair the overlap check runs first, then the
purpose-order check; the first failure is raised.  `idx` is the 0-based
position of the pair's first entry. -/
def validatePairs (idx : ℕ) : List SBEntry → Option ValidationError
  | a :: b :: rest =>
    if pairOverlap a b then
      some (ValidationError.overlap a.name (idx + 1) b.frame_start b.name)
    else if pairPurposeViolation a b then
      some (ValidationError.purposeOrder a.purpose b.purpose)
    else validatePairs (idx + 1) (b :: rest)
  | _ => none

/-- `Storyboard._validate_formation_size_contraints`: entries without a
formation are skipped; the first entry whose marker count exceeds the drone
count fails. -/
def validateCapacity (numDrones : ℕ) : List SBEntry → Option ValidationError
  | [] => none
  | e :: rest =>
    match e.formation_markers with
    | none => validateCapacity numDrones rest
    | some m =>
      if numDrones < m then some (ValidationError.capacity e.name m numDrones)
      else validateCapacity numDrones rest

/-- `Storyboard.validate_and_sort_entries`: sort, then the pair validator,
then the capacity validator; the sorted entries on success. -/
def validateAndSortEntries (numDrones : ℕ) (es : List SBEntry) :
    Except ValidationError (List SBEntry) :=
  match validatePairs 0 (sortEntries es) with
  | some err => Except.error err
  | none =>
    match validateCapacity numDrones (sortEntries es) with
    | some err => Except.error err
    | none => Except.ok (sortEntries es)

/-- Reference definition following the amended claim's words: the list of
violations in the order the implementation is claimed to detect them —
per adjacent pair, overlap before purpose order, pairs in sorted order —
followed by the capacity violations in entry order. -/
def interleavedPairErrors (idx : ℕ) : List SBEntry → List ValidationError
  | a :: b :: rest =>
    (if pairOverlap a b then
      [ValidationError.overlap a.name (idx + 1) b.frame_start b.name] else [])
    ++ (if pairPurposeViolation a b then
      [ValidationError.purposeOrder a.purpose b.purpose] else [])
    ++ interleavedPairErrors (idx + 1) (b :: rest)
  | _ => []

/-- Reference definition following the amended claim's words: capacity
violations in entry order. -/
def capacityErrors (numDrones : ℕ) (l : List SBEntry) : List ValidationError :=
  l.filterMap (fun e =>
    match e.formation_markers with
    | none => none
    | some m =>
      if numDrones < m then some (ValidationError.capacity e.name m numDrones)
      else none)

/-- Reference validation following the amended claim's words: report the
first violation in the interleaved-pairs-then-capacity order. -/
def specValidation (numDrones : ℕ) (es : List SBEntry) :
    Except ValidationError (List SBEntry) :=
  match (interleavedPairErrors 0 (sortEntries es) ++
      capacityErrors numDrones (sortEntries es)).head? with
  | some err => Except.error err
  | none => Except.ok (sortEntries es)

lemma validatePairs_eq_head (l : List SBEntry) : ∀ idx : ℕ,
    validatePairs idx l = (interleavedPairErrors idx l).head? := by
  induction l with
  | nil => intro idx; rfl
  | cons a rest ih =>
    intro idx
    match rest with
    | [] => rfl
    | b :: rest' =>
      unfold validatePairs interleavedPairErrors
      by_cases ho : pairOverlap a b
      · rw [if_pos ho, if_pos ho]
        rfl
      · rw [if_neg ho, if_neg ho]
        by_cases hp : pairPurposeViolation a b
        · rw [if_pos hp, if_pos hp]
          rfl
        · rw [if_neg hp, if_neg hp]
          simp only [List.nil_append]
          exact ih idx.succ

lemma validateCapacity_eq_head (numDrones : ℕ) (l : List SBEntry) :
    validateCapacity numDrones l = (capacityErrors numDrones l).head? := by
  induction l with
  | nil => rfl
  | cons e rest ih =>
    unfold validateCapacity capacityErrors
    match hm : e.formation_markers with
    | none =>
      simp only [hm, List.filterMap_cons]
      exact ih
    | some m =>
      by_cases hc : numDrones < m
      · simp only [hm, if_pos hc, List.filterMap_cons]
        rfl
      · simp only [hm, if_neg hc, List.filterMap_cons]
        exact ih

/-- C6 (amended): validation reports the first violation in the order:
for each adjacent pair of the sorted sequence (in order), the overlap check
then the purpose-order check for that same pair; after all pairs, the
capacity check over every entry; success returns the sorted entries.  The
overlap and purpose checks are interleaved per pair — the overlap check
does not run over the whole sequence before the purpose check. -/
theorem validation_first_violation (numDrones : ℕ) (es : List SBEntry) :
    validateAndSortEntries numDrones es = specValidation numDrones es := by
  unfold validateAndSortEntries specValidation
  rw [validatePairs_eq_head, validateCapacity_eq_head]
  cases h : (interleavedPairErrors 0 (sortEntries es)).head? with
  | some err => simp [List.head?_append, h]
  | none =>
    simp only [List.head?_append, h, Option.none_or]

/-- C6 counterexample: three sorted entries where the first adjacent pair
violates purpose monotonicity (Show followed by Takeoff) and the second
adjacent pair overlaps (frame_end 30 ≥ frame_start 25).  The claim says the
overlap error is reported (overlap check over all pairs first); the code
reports the purpose-order violation of the earlier pair. -/
theorem validation_order_counterexample :
    validateAndSortEntries 99
        [SBEntry.mk "A" 0 11 Purpose.show' none,
         SBEntry.mk "B" 20 11 Purpose.takeoff none,
         SBEntry.mk "C" 25 11 Purpose.show' none] =
      Except.error (ValidationError.purposeOrder Purpose.show' Purpose.takeoff)
    ∧ pairOverlap (SBEntry.mk "B" 20 11 Purpose.takeoff none)
        (SBEntry.mk "C" 25 11 Purpose.show' none) := by
  constructor
  · rfl
  · decide

/-- `Storyboard._on_active_entry_moving_down(this_entry, next_entry)`:
returns the updated `(this_entry, next_entry)`. -/
def onActiveEntryMovingDown (cur nxt : SBEntry) : SBEntry × SBEntry :=
  let pad := nxt.frame_start - cur.frame_end
  ({cur with frame_start := cur.frame_start + nxt.duration + pad},
   {nxt with frame_start := cur.frame_start})

/-- `Storyboard._on_active_entry_moving_up(this_entry, prev_entry)`:
returns the updated `(this_entry, prev_entry)`. -/
def onActiveEntryMovingUp (cur prv : SBEntry) : SBEntry × SBEntry :=
  let pad := cur.frame_start - prv.frame_end
  ({cur with frame_start := prv.frame_start},
   {prv with frame_start := prv.frame_start + cur.duration + pad})

/-- C9 counterexample: moving entry X (frames 0..9) down past entry Y
(frames 20..24): the gap before the swap is `20 − 9 = 11`, the gap after
the swap is `16 − 4 = 12` — the difference between the later entry's
`frame_start` and the earlier entry's `frame_end` is *not* preserved. -/
theorem reorder_gap_counterexample :
    (onActiveEntryMovingDown (SBEntry.mk "X" 0 10 Purpose.show' none)
        (SBEntry.mk "Y" 20 5 Purpose.show' none)).1.frame_start -
      SBEntry.frame_end (onActiveEntryMovingDown (SBEntry.mk "X" 0 10 Purpose.show' none)
        (SBEntry.mk "Y" 20 5 Purpose.show' none)).2 = 12
    ∧ (SBEntry.mk "Y" 20 5 Purpose.show' none).frame_start -
        SBEntry.frame_end (SBEntry.mk "X" 0 10 Purpose.show' none) = 11 := by
  constructor
  · rfl
  · rfl

/-- C9 (amended): moving an entry past its neighbour swaps the two entries
by re-basing `frame_start` — the displaced neighbour takes the moved
entry's old `frame_start` (moving down) or the moved entry takes the
neighbour's old `frame_start` (moving up) — and the gap between them, the
difference between the later entry's `frame_start` and the earlier entry's
`frame_end`, grows by exactly one frame relative to its value before the
swap. -/
theorem reorder_gap_rebasing (cur nxt prv : SBEntry) :
    ((onActiveEntryMovingDown cur nxt).2.frame_start = cur.frame_start
      ∧ (onActiveEntryMovingDown cur nxt).1.frame_start -
          SBEntry.frame_end (onActiveEntryMovingDown cur nxt).2 =
        (nxt.frame_start - SBEntry.frame_end cur) + 1)
    ∧ ((onActiveEntryMovingUp cur prv).1.frame_start = prv.frame_start
      ∧ (onActiveEntryMovingUp cur prv).2.frame_start -
          SBEntry.frame_end (onActiveEntryMovingUp cur prv).1 =
        (cur.frame_start - SBEntry.frame_end prv) + 1) := by
  unfold onActiveEntryMovingDown onActiveEntryMovingUp SBEntry.frame_end
  refine ⟨⟨rfl, ?_⟩, ⟨rfl, ?_⟩⟩
  · simp only
    ring
  · simp only
    ring

/-! ## `sbstudio/plugin/math/nearest_neighbors.py`

Points are `(x, y, z)` rational triples (floats embedded as exact
rationals).  The module works with *squared* distances internally and takes
a single square root at the very end (`dist_sq ** 0.5`); the embedding
returns the squared distance, and minimality statements transfer to the
Euclidean distance because the square root is strictly monotone on
nonnegative numbers.  `(None, None, inf)` results are embedded as `none`. -/

abbrev Point : Type := ℚ × ℚ × ℚ

def d0 : Point := (0, 0, 0)

/-- Coordinate along one of the three axes. -/
def coord (ax : Fin 3) (p : Point) : ℚ :=
  if ax.val = 0 then p.1 else if ax.val = 1 then p.2.1 else p.2.2

/-- Squared Euclidean distance (`_get_distance_sq_matrix` entries). -/
def distSq (p q : Point) : ℚ :=
  (p.1 - q.1) ^ 2 + (p.2.1 - q.2.1) ^ 2 + (p.2.2 - q.2.2) ^ 2

lemma distSq_comm (p q : Point) : distSq p q = distSq q p := by
  unfold distSq
  ring

lemma distSq_nonneg (p q : Point) : 0 ≤ distSq p q := by
  unfold distSq
  positivity

/-- One squared coordinate difference is at most the squared distance. -/
lemma coord_sq_le_distSq (ax : Fin 3) (p q : Point) :
    (coord ax p - coord ax q) ^ 2 ≤ distSq p q := by
  have h1 := sq_nonneg (p.1 - q.1)
  have h2 := sq_nonneg (p.2.1 - q.2.1)
  have h3 := sq_nonneg (p.2.2 - q.2.2)
  fin_cases ax <;> simp only [coord, distSq] <;> norm_num <;> linarith

/-- Order along an axis, used for sorting and for the divide-and-conquer
split. -/
def axLE (ax : Fin 3) (p q : Point) : Prop :=
  coord ax p ≤ coord ax q

instance (ax : Fin 3) (p q : Point) : Decidable (axLE ax p q) := by
  unfold axLE
  infer_instance

instance (ax : Fin 3) : IsTotal Point (axLE ax) :=
  ⟨fun p q => le_total (coord ax p) (coord ax q)⟩

instance (ax : Fin 3) : IsTrans Point (axLE ax) :=
  ⟨fun _ _ _ h1 h2 => le_trans h1 h2⟩

/-- `points[points[:, principal_axis].argsort(), :]`: sort by the chosen
axis (embedded with a stable insertion sort; the claims proved below are
insensitive to the order of axis-ties). -/
def sortPoints (ax : Fin 3) (l : List Point) : List Point :=
  l.insertionSort (axLE ax)

/-- `ptp(points, axis=0)` along one axis (peak-to-peak; only meaningful for
nonempty input, which is all the callers pass). -/
def ptpAx (ax : Fin 3) (l : List Point) : ℚ :=
  ((l.map (coord ax)).max?.getD 0) - ((l.map (coord ax)).min?.getD 0)

/-- `ptp(points, axis=0).argmax()`: the first axis with the largest
spread. -/
def principalAxis (l : List Point) : Fin 3 :=
  let r0 := ptpAx 0 l
  let r1 := ptpAx 1 l
  let r2 := ptpAx 2 l
  if r1 ≤ r0 ∧ r2 ≤ r0 then 0
  else if r0 < r1 ∧ r2 ≤ r1 then 1
  else 2

/-! ### Minimum of a list of rationals with `+inf` as the empty minimum -/

def minD : List ℚ → WithTop ℚ
  | [] => ⊤
  | a :: t => min (a : WithTop ℚ) (minD t)

lemma minD_le_of_mem {l : List ℚ} {a : ℚ} (h : a ∈ l) : minD l ≤ (a : WithTop ℚ) := by
  induction l with
  | nil => cases h
  | cons b t ih =>
    rcases List.mem_cons.mp h with hb | ht
    · subst hb
      exact min_le_left _ _
    · exact le_trans (min_le_right _ _) (ih ht)

lemma le_minD_iff {l : List ℚ} {m : WithTop ℚ} :
    m ≤ minD l ↔ ∀ a ∈ l, m ≤ (a : WithTop ℚ) := by
  induction l with
  | nil => simp [minD]
  | cons b t ih =>
    simp only [minD, le_min_iff, List.mem_cons, ih]
    constructor
    · rintro ⟨h1, h2⟩ a (rfl | ha)
      · exact h1
      · exact h2 a ha
    · intro h
      exact ⟨h b (Or.inl rfl), fun a ha => h a (Or.inr ha)⟩

lemma minD_subset {s t : List ℚ} (h : ∀ a ∈ s, a ∈ t) : minD t ≤ minD s := by
  rw [le_minD_iff]
  exact fun a ha => minD_le_of_mem (h a ha)

lemma minD_eq_of_mem_iff {s t : List ℚ} (h : ∀ a : ℚ, a ∈ s ↔ a ∈ t) :
    minD s = minD t :=
  le_antisymm (minD_subset fun a ha => (h a).mpr ha) (minD_subset fun a ha => (h a).mp ha)

lemma minD_attained {l : List ℚ} (h : l ≠ []) :
    ∃ a ∈ l, minD l = (a : WithTop ℚ) := by
  induction l with
  | nil => exact absurd rfl h
  | cons b t ih =>
    match t with
    | [] =>
      refine ⟨b, List.mem_singleton_self b, ?_⟩
      simp [minD]
    | c :: t' =>
      rcases ih (by simp) with ⟨a, ha, hmin⟩
      rcases le_total (b : WithTop ℚ) (minD (c :: t')) with hle | hle
      · refine ⟨b, List.mem_cons_self b _, ?_⟩
        show min (b : WithTop ℚ) (minD (c :: t')) = (b : WithTop ℚ)
        exact min_eq_left hle
      · refine ⟨a, List.mem_cons_of_mem b ha, ?_⟩
        show min (b : WithTop ℚ) (minD (c :: t')) = (a : WithTop ℚ)
        rw [min_eq_right hle, hmin]

lemma minD_perm {s t : List ℚ} (h : s.Perm t) : minD s = minD t := by
  induction h with
  | nil => rfl
  | cons a _ ih => rw [minD, minD, ih]
  | swap a b l =>
    show min (b : WithTop ℚ) (min (a : WithTop ℚ) (minD l)) =
      min (a : WithTop ℚ) (min (b : WithTop ℚ) (minD l))
    rw [min_left_comm]
  | trans _ _ ih1 ih2 => rw [ih1, ih2]

/-! ### `argmin` over a candidate list (first occurrence of the minimum,
matching numpy's `argmin` on the row-major flattened matrix) -/

def pickMinAux (best : Point × Point × ℚ) : List (Point × Point × ℚ) → Point × Point × ℚ
  | [] => best
  | c :: cs => pickMinAux (if c.2.2 < best.2.2 then c else best) cs

def pickMin? : List (Point × Point × ℚ) → Option (Point × Point × ℚ)
  | [] => none
  | c :: cs => some (pickMinAux c cs)

lemma pickMinAux_spec (cs : List (Point × Point × ℚ)) :
    ∀ best, (pickMinAux best cs = best ∨ pickMinAux best cs ∈ cs)
      ∧ (pickMinAux best cs).2.2 ≤ best.2.2
      ∧ ∀ u ∈ cs, (pickMinAux best cs).2.2 ≤ u.2.2 := by
  induction cs with
  | nil =>
    intro best
    exact ⟨Or.inl rfl, le_refl _, fun u hu => absurd hu (List.not_mem_nil u)⟩
  | cons c cs' ih =>
    intro best
    rw [pickMinAux]
    by_cases hc : c.2.2 < best.2.2
    · rw [if_pos hc]
      rcases ih c with ⟨hmem, hle, hall⟩
      refine ⟨?_, le_trans hle (le_of_lt hc), ?_⟩
      · rcases hmem with h | h
        · exact Or.inr (by rw [h]; exact List.mem_cons_self c cs')
        · exact Or.inr (List.mem_cons_of_mem c h)
      · intro u hu
        rcases List.mem_cons.mp hu with rfl | hu'
        · exact hle
        · exact hall u hu'
    · rw [if_neg hc]
      rcases ih best with ⟨hmem, hle, hall⟩
      refine ⟨?_, hle, ?_⟩
      · rcases hmem with h | h
        · exact Or.inl h
        · exact Or.inr (List.mem_cons_of_mem c h)
      · intro u hu
        rcases List.mem_cons.mp hu with rfl | hu'
        · exact le_trans hle (not_lt.mp hc)
        · exact hall u hu'

lemma pickMin?_spec {cands : List (Point × Point × ℚ)} (h : cands ≠ []) :
    ∃ t ∈ cands, pickMin? cands = some t ∧ ∀ u ∈ cands, t.2.2 ≤ u.2.2 := by
  match cands with
  | [] => exact absurd rfl h
  | c :: cs =>
    rcases pickMinAux_spec cs c with ⟨hmem, hle, hall⟩
    refine ⟨pickMinAux c cs, ?_, rfl, ?_⟩
    · rcases hmem with h' | h'
      · rw [h']
        exact List.mem_cons_self c cs
      · exact List.mem_cons_of_mem c h'
    · intro u hu
      rcases List.mem_cons.mp hu with rfl | hu'
      · exact hle
      · exact hall u hu'

/-! ### Brute-force closest pair (`_get_distance_sq_matrix` with the
diagonal filled with `inf`, then `argmin` over the row-major flattening) -/

/-- Row-major order of the off-diagonal entries of an `n × n` matrix: the
order in which `argmin` meets the entries that are not the `inf`
diagonal. -/
def rmPairs (n : ℕ) : List (ℕ × ℕ) :=
  (List.range n).flatMap (fun i =>
    ((List.range n).filter (fun j => j ≠ i)).map (fun j => (i, j)))

lemma mem_rmPairs {n i j : ℕ} : (i, j) ∈ rmPairs n ↔ i < n ∧ j < n ∧ j ≠ i := by
  unfold rmPairs
  simp only [List.mem_flatMap, List.mem_map, List.mem_filter, List.mem_range,
    Prod.mk.injEq, decide_eq_true_eq]
  constructor
  · rintro ⟨a, ha, b, ⟨hb, hbne⟩, rfl, rfl⟩
    exact ⟨ha, hb, hbne⟩
  · rintro ⟨hi, hj, hne⟩
    exact ⟨i, hi, j, ⟨hj, hne⟩, rfl, rfl⟩

lemma getD_mem {l : List Point} {i : ℕ} (h : i < l.length) : l.getD i d0 ∈ l := by
  rw [List.getD_eq_getElem _ _ h]
  exact List.getElem_mem h

/-- The candidate triples the base-case brute force scans, in `argmin`
order. -/
def bruteCands (l : List Point) : List (Point × Point × ℚ) :=
  (rmPairs l.length).map (fun ij =>
    (l.getD ij.1 d0, l.getD ij.2 d0, distSq (l.getD ij.1 d0) (l.getD ij.2 d0)))

/-- `_nearest_neighbors_brute_force` variant used inside the recursion
(returns the squared distance). -/
def bfStep (l : List Point) : Option (Point × Point × ℚ) :=
  pickMin? (bruteCands l)

def bruteVals (l : List Point) : List ℚ :=
  (bruteCands l).map (fun c => c.2.2)

/-- The brute-force minimum squared distance over all distinct index pairs
(`⊤` plays the role of `+inf` for lists with fewer than two points). -/
def bruteMin (l : List Point) : WithTop ℚ :=
  minD (bruteVals l)

lemma mem_bruteVals {l : List Point} {v : ℚ} :
    v ∈ bruteVals l ↔ ∃ i j, i < l.length ∧ j < l.length ∧ j ≠ i ∧
      v = distSq (l.getD i d0) (l.getD j d0) := by
  unfold bruteVals bruteCands
  rw [List.map_map]
  simp only [List.mem_map, Function.comp_apply]
  constructor
  · rintro ⟨⟨i, j⟩, hmem, rfl⟩
    rcases mem_rmPairs.mp hmem with ⟨hi, hj, hne⟩
    exact ⟨i, j, hi, hj, hne, rfl⟩
  · rintro ⟨i, j, hi, hj, hne, rfl⟩
    exact ⟨(i, j), mem_rmPairs.mpr ⟨hi, hj, hne⟩, rfl⟩

lemma bfStep_spec {l : List Point} (h2 : 2 ≤ l.length) :
    ∃ p q dsq, bfStep l = some (p, q, dsq) ∧ p ∈ l ∧ q ∈ l ∧ dsq = distSq p q ∧
      (dsq : WithTop ℚ) = bruteMin l := by
  have hne : bruteCands l ≠ [] := by
    intro hnil
    have : ((0 : ℕ), (1 : ℕ)) ∈ rmPairs l.length :=
      mem_rmPairs.mpr ⟨by omega, by omega, by omega⟩
    have : (l.getD 0 d0, l.getD 1 d0, distSq (l.getD 0 d0) (l.getD 1 d0)) ∈ bruteCands l := by
      unfold bruteCands
      exact List.mem_map.mpr ⟨(0, 1), this, rfl⟩
    rw [hnil] at this
    exact List.not_mem_nil _ this
  rcases pickMin?_spec hne with ⟨t, htmem, hpick, hall⟩
  rcases List.mem_map.mp (by unfold bruteCands at htmem; exact htmem) with ⟨⟨i, j⟩, hij, hteq⟩
  rcases mem_rmPairs.mp hij with ⟨hi, hj, hne'⟩
  refine ⟨t.1, t.2.1, t.2.2, ?_, ?_, ?_, ?_, ?_⟩
  · unfold bfStep
    rw [hpick]
  · rw [← hteq]
    exact getD_mem hi
  · rw [← hteq]
    exact getD_mem hj
  · rw [← hteq]
  · unfold bruteMin
    apply le_antisymm
    · rw [le_minD_iff]
      intro a ha
      rcases List.mem_map.mp (by unfold bruteVals at ha; exact ha) with ⟨c, hc, rfl⟩
      exact WithTop.coe_le_coe.mpr (hall c hc)
    · apply minD_le_of_mem
      unfold bruteVals
      exact List.mem_map.mpr ⟨t, htmem, rfl⟩

/-! ### Unordered pairs of a list, and permutation invariance -/

/-- All pairs from distinct positions `i < j`, in order; the reference
enumeration used both for the brute-force minimum and for
`all_pairs_within`. -/
def pairsList : List Point → List (Point × Point)
  | [] => []
  | a :: t => (t.map (fun b => (a, b))) ++ pairsList t

/-- `distSq` as a function on unordered pairs. -/
def distSqSym : Sym2 Point → ℚ :=
  Sym2.lift ⟨distSq, fun a b => distSq_comm a b⟩

lemma distSqSym_mk (pq : Point × Point) : distSqSym (Sym2.mk pq) = distSq pq.1 pq.2 := by
  cases pq
  rfl

lemma perm_middle_blocks {α : Type} (x y z : List α) :
    (x ++ (y ++ z)).Perm (y ++ (x ++ z)) := by
  rw [← List.append_assoc, ← List.append_assoc]
  exact List.perm_append_comm.append_right z

lemma pairsList_sym2_perm {l l' : List Point} (h : l.Perm l') :
    ((pairsList l).map Sym2.mk).Perm ((pairsList l').map Sym2.mk) := by
  induction h with
  | nil => exact List.Perm.refl _
  | cons a hp ih =>
    simp only [pairsList, List.map_append, List.map_map]
    exact (hp.map _).append ih
  | swap a b s =>
    simp only [pairsList, List.map_append, List.map_map, List.map_cons]
    rw [show Sym2.mk (b, a) = Sym2.mk (a, b) from Sym2.eq_swap]
    exact List.Perm.cons _ (perm_middle_blocks _ _ _)
  | trans _ _ ih1 ih2 => exact ih1.trans ih2

/-- Squared distances of all `i < j` pairs. -/
def dlist (l : List Point) : List ℚ :=
  (pairsList l).map (fun pq => distSq pq.1 pq.2)

lemma dlist_eq_sym2_map (l : List Point) :
    dlist l = ((pairsList l).map Sym2.mk).map distSqSym := by
  unfold dlist
  rw [List.map_map]
  exact List.map_congr_left (fun pq _ => (distSqSym_mk pq).symm)

lemma dlist_perm {l l' : List Point} (h : l.Perm l') : (dlist l).Perm (dlist l') := by
  rw [dlist_eq_sym2_map, dlist_eq_sym2_map]
  exact (pairsList_sym2_perm h).map distSqSym

lemma mem_pairsList {l : List Point} {pq : Point × Point} :
    pq ∈ pairsList l ↔ ∃ i j, i < j ∧ j < l.length ∧
      pq = (l.getD i d0, l.getD j d0) := by
  induction l with
  | nil => simp [pairsList]
  | cons a t ih =>
    simp only [pairsList, List.mem_append, List.mem_map, ih]
    constructor
    · rintro (⟨b, hb, rfl⟩ | ⟨i, j, hij, hj, rfl⟩)
      · rcases List.mem_iff_getElem.mp hb with ⟨k, hk, rfl⟩
        refine ⟨0, k + 1, by omega, by simp; omega, ?_⟩
        rw [List.getD_cons_zero, List.getD_cons_succ, List.getD_eq_getElem _ _ hk]
      · refine ⟨i + 1, j + 1, by omega, by simp; omega, ?_⟩
        rw [List.getD_cons_succ, List.getD_cons_succ]
    · rintro ⟨i, j, hij, hj, rfl⟩
      match i, j with
      | 0, j + 1 =>
        left
        have hjt : j < t.length := by simp at hj; omega
        refine ⟨t.getD j d0, getD_mem hjt, ?_⟩
        rw [List.getD_cons_zero, List.getD_cons_succ]
      | i + 1, j + 1 =>
        right
        refine ⟨i, j, by omega, by simp at hj; omega, ?_⟩
        rw [List.getD_cons_succ, List.getD_cons_succ]

lemma mem_dlist {l : List Point} {v : ℚ} :
    v ∈ dlist l ↔ ∃ i j, i < j ∧ j < l.length ∧
      v = distSq (l.getD i d0) (l.getD j d0) := by
  unfold dlist
  simp only [List.mem_map]
  constructor
  · rintro ⟨pq, hpq, rfl⟩
    rcases mem_pairsList.mp hpq with ⟨i, j, hij, hj, rfl⟩
    exact ⟨i, j, hij, hj, rfl⟩
  · rintro ⟨i, j, hij, hj, rfl⟩
    exact ⟨(l.getD i d0, l.getD j d0), mem_pairsList.mpr ⟨i, j, hij, hj, rfl⟩, rfl⟩

lemma bruteMin_eq_minD_dlist (l : List Point) : bruteMin l = minD (dlist l) := by
  apply minD_eq_of_mem_iff
  intro v
  rw [mem_bruteVals, mem_dlist]
  constructor
  · rintro ⟨i, j, hi, hj, hne, rfl⟩
    rcases Nat.lt_or_ge i j with hij | hij
    · exact ⟨i, j, hij, hj, rfl⟩
    · have hji : j < i := by omega
      exact ⟨j, i, hji, hi, distSq_comm _ _⟩
  · rintro ⟨i, j, hij, hj, rfl⟩
    exact ⟨i, j, by omega, hj, by omega, rfl⟩

lemma bruteMin_perm {l l' : List Point} (h : l.Perm l') : bruteMin l = bruteMin l' := by
  rw [bruteMin_eq_minD_dlist, bruteMin_eq_minD_dlist]
  exact minD_perm (dlist_perm h)

/-! ### Split of the brute-force minimum across a partition -/

/-- Squared distances of all pairs with one point in `A` and one in `B`. -/
def crossVals (A B : List Point) : List ℚ :=
  A.flatMap (fun a => B.map (fun b => distSq a b))

lemma mem_crossVals {A B : List Point} {v : ℚ} :
    v ∈ crossVals A B ↔ ∃ a ∈ A, ∃ b ∈ B, v = distSq a b := by
  unfold crossVals
  simp only [List.mem_flatMap, List.mem_map]
  constructor
  · rintro ⟨a, ha, b, hb, rfl⟩
    exact ⟨a, ha, b, hb, rfl⟩
  · rintro ⟨a, ha, b, hb, rfl⟩
    exact ⟨a, ha, b, hb, rfl⟩

lemma getD_append_lt {A B : List Point} {i : ℕ} (h : i < A.length) :
    (A ++ B).getD i d0 = A.getD i d0 := by
  rw [List.getD_eq_getElem _ _ (by rw [List.length_append]; omega),
    List.getD_eq_getElem _ _ h]
  exact List.getElem_append_left h

lemma getD_append_ge {A B : List Point} {i : ℕ} (h : A.length ≤ i)
    (h2 : i < A.length + B.length) : (A ++ B).getD i d0 = B.getD (i - A.length) d0 := by
  rw [List.getD_eq_getElem _ _ (by rw [List.length_append]; omega),
    List.getD_eq_getElem _ _ (by omega)]
  exact List.getElem_append_right h

lemma bruteMin_append (A B : List Point) :
    bruteMin (A ++ B) = min (bruteMin A) (min (bruteMin B) (minD (crossVals A B))) := by
  unfold bruteMin
  apply le_antisymm
  · refine le_min ?_ (le_min ?_ ?_)
    · apply minD_subset
      intro v hv
      rcases mem_bruteVals.mp hv with ⟨i, j, hi, hj, hne, rfl⟩
      apply mem_bruteVals.mpr
      refine ⟨i, j, by rw [List.length_append]; omega, by rw [List.length_append]; omega,
        hne, ?_⟩
      rw [getD_append_lt hi, getD_append_lt hj]
    · apply minD_subset
      intro v hv
      rcases mem_bruteVals.mp hv with ⟨i, j, hi, hj, hne, rfl⟩
      apply mem_bruteVals.mpr
      refine ⟨A.length + i, A.length + j, by rw [List.length_append]; omega,
        by rw [List.length_append]; omega, by omega, ?_⟩
      rw [getD_append_ge (by omega) (by omega), getD_append_ge (by omega) (by omega)]
      congr 2 <;> omega
    · apply minD_subset
      intro v hv
      rcases mem_crossVals.mp hv with ⟨a, ha, b, hb, rfl⟩
      rcases List.mem_iff_getElem.mp ha with ⟨i, hi, rfl⟩
      rcases List.mem_iff_getElem.mp hb with ⟨j, hj, rfl⟩
      apply mem_bruteVals.mpr
      refine ⟨i, A.length + j, by rw [List.length_append]; omega,
        by rw [List.length_append]; omega, by omega, ?_⟩
      rw [getD_append_lt (by omega), getD_append_ge (by omega) (by omega),
        List.getD_eq_getElem _ _ hi, List.getD_eq_getElem _ _ (by omega : A.length + j - A.length < B.length)]
      congr 2
      omega
  · rw [le_minD_iff]
    intro v hv
    rcases mem_bruteVals.mp hv with ⟨i, j, hi, hj, hne, rfl⟩
    rw [List.length_append] at hi hj
    rcases Nat.lt_or_ge i A.length with hiA | hiA
    · rcases Nat.lt_or_ge j A.length with hjA | hjA
      · refine le_trans (min_le_left _ _) ?_
        apply minD_le_of_mem
        apply mem_bruteVals.mpr
        refine ⟨i, j, hiA, hjA, hne, ?_⟩
        rw [getD_append_lt hiA, getD_append_lt hjA]
      · refine le_trans (min_le_right _ _) (le_trans (min_le_right _ _) ?_)
        apply minD_le_of_mem
        apply mem_crossVals.mpr
        refine ⟨(A ++ B).getD i d0, ?_, (A ++ B).getD j d0, ?_, rfl⟩
        · rw [getD_append_lt hiA]
          exact getD_mem hiA
        · rw [getD_append_ge hjA (by omega)]
          exact getD_mem (by omega)
    · rcases Nat.lt_or_ge j A.length with hjA | hjA
      · refine le_trans (min_le_right _ _) (le_trans (min_le_right _ _) ?_)
        apply minD_le_of_mem
        apply mem_crossVals.mpr
        refine ⟨(A ++ B).getD j d0, ?_, (A ++ B).getD i d0, ?_, distSq_comm _ _⟩
        · rw [getD_append_lt hjA]
          exact getD_mem hjA
        · rw [getD_append_ge hiA (by omega)]
          exact getD_mem (by omega)
      · refine le_trans (min_le_right _ _) (le_trans (min_le_left _ _) ?_)
        apply minD_le_of_mem
        apply mem_bruteVals.mpr
        refine ⟨i - A.length, j - A.length, by omega, by omega, by omega, ?_⟩
        rw [getD_append_ge hiA (by omega), getD_append_ge hjA (by omega)]

/-! ### Sorted-list facts used by the band scan -/

lemma sorted_getD_mono {ax : Fin 3} {l : List Point} (hs : List.Sorted (axLE ax) l)
    {i j : ℕ} (hij : i ≤ j) (hj : j < l.length) :
    coord ax (l.getD i d0) ≤ coord ax (l.getD j d0) := by
  rcases Nat.eq_or_lt_of_le hij with rfl | hlt
  · exact le_refl _
  · rw [List.getD_eq_getElem _ _ (by omega), List.getD_eq_getElem _ _ hj]
    exact List.pairwise_iff_get.mp hs ⟨i, by omega⟩ ⟨j, hj⟩ hlt

/-- A point predicate that is downward-closed along the axis order. -/
def DownClosed (ax : Fin 3) (pred : Point → Bool) : Prop :=
  ∀ p q : Point, coord ax p ≤ coord ax q → pred q = true → pred p = true

lemma sorted_countP_ge {ax : Fin 3} {pred : Point → Bool} {l : List Point}
    (hs : List.Sorted (axLE ax) l) (hdc : DownClosed ax pred)
    {i : ℕ} (hi : i < l.length) (hp : pred (l.getD i d0) = true) :
    i < l.countP pred := by
  have hlen : (l.take (i + 1)).length = i + 1 := by
    rw [List.length_take]
    omega
  have hall : ∀ a ∈ l.take (i + 1), pred a = true := by
    intro a ha
    rcases List.mem_iff_getElem.mp ha with ⟨k, hk, rfl⟩
    rw [hlen] at hk
    rw [List.getElem_take]
    have hmono := @sorted_getD_mono ax l hs k i (by omega) hi
    rw [@List.getD_eq_getElem Point l d0 k (by omega)] at hmono
    exact hdc _ _ hmono hp
  have hcount : (l.take (i + 1)).countP pred = i + 1 := by
    rw [List.countP_eq_length.mpr hall, hlen]
  calc i < i + 1 := by omega
    _ = (l.take (i + 1)).countP pred := hcount.symm
    _ ≤ (l.take (i + 1)).countP pred + (l.drop (i + 1)).countP pred := by omega
    _ = l.countP pred := by rw [← List.countP_append, List.take_append_drop]

lemma sorted_countP_le {ax : Fin 3} {pred : Point → Bool} {l : List Point}
    (hs : List.Sorted (axLE ax) l) (hdc : DownClosed ax pred)
    {i : ℕ} (hi : i < l.length) (hp : ¬ pred (l.getD i d0) = true) :
    l.countP pred ≤ i := by
  have hzero : (l.drop i).countP pred = 0 := by
    rw [List.countP_eq_zero]
    intro a ha
    rcases List.mem_iff_getElem.mp ha with ⟨k, hk, rfl⟩
    rw [List.getElem_drop]
    intro hpa
    apply hp
    have hk2 : i + k < l.length := by rw [List.length_drop] at hk; omega
    have hmono := @sorted_getD_mono ax l hs i (i + k) (by omega) hk2
    rw [@List.getD_eq_getElem Point l d0 (i + k) hk2] at hmono
    exact hdc _ _ hmono hpa
  calc l.countP pred = (l.take i).countP pred + (l.drop i).countP pred := by
        rw [← List.countP_append, List.take_append_drop]
    _ = (l.take i).countP pred := by rw [hzero]; omega
    _ ≤ (l.take i).length := List.countP_le_length pred
    _ ≤ i := by rw [List.length_take]; omega

/-! ### The band scan (`_nearest_neighbors_find_closest_split_pair`)

`searchsorted(xs, midpoint ± dist, ...)` compares coordinates against
`midpoint ± dist` where `dist = sqrt(dist_sq_nonsplit)`; the comparisons
are expressed with rational arithmetic only (`x < midpoint − sqrt d` iff
`0 < midpoint − x ∧ d < (midpoint − x)²`, and
`x ≤ midpoint + sqrt d` iff `x ≤ midpoint ∨ (x − midpoint)² ≤ d`).
`dstar = none` encodes `dist_sq_nonsplit = inf`. -/

/-- `x < midpoint - dist` (the `searchsorted(..., side="left")` strict
comparison). -/
def predLoB (dstar : Option ℚ) (midpoint x : ℚ) : Bool :=
  match dstar with
  | none => false
  | some d => decide (0 < midpoint - x ∧ d < (midpoint - x) ^ 2)

/-- `x ≤ midpoint + dist` (the `searchsorted(..., side="right")` weak
comparison). -/
def predHiB (dstar : Option ℚ) (midpoint x : ℚ) : Bool :=
  match dstar with
  | none => true
  | some d => decide (x - midpoint ≤ 0 ∨ (x - midpoint) ^ 2 ≤ d)

/-- `_nearest_neighbors_find_closest_split_pair`: band boundaries via the
bisect counts, the `lo == mid_index or hi == mid_index` sentinel, then the
brute-force `argmin` over the `left × right` band block. -/
def splitPair (ax : Fin 3) (l : List Point) (mid : ℕ) (midpoint : ℚ)
    (dstar : Option ℚ) : Option (Point × Point × ℚ) :=
  if l.countP (fun p => predLoB dstar midpoint (coord ax p)) = mid ∨
      l.countP (fun p => predHiB dstar midpoint (coord ax p)) = mid then none
  else
    pickMin?
      (((l.drop (l.countP (fun p => predLoB dstar midpoint (coord ax p)))).take
          (mid - l.countP (fun p => predLoB dstar midpoint (coord ax p)))).flatMap
        (fun a =>
          ((l.drop mid).take
              (l.countP (fun p => predHiB dstar midpoint (coord ax p)) - mid)).map
            (fun b => (a, b, distSq a b))))

lemma mem_slice_left {l : List Point} {lo mid i : ℕ} (hlo : lo ≤ i) (hi : i < mid)
    (hmid : mid ≤ l.length) : l.getD i d0 ∈ (l.drop lo).take (mid - lo) := by
  apply List.mem_iff_getElem.mpr
  refine ⟨i - lo, ?_, ?_⟩
  · rw [List.length_take, List.length_drop]
    omega
  · rw [List.getElem_take, List.getElem_drop, List.getD_eq_getElem _ _ (by omega)]
    congr 1
    omega

lemma mem_slice_right {l : List Point} {mid hi j : ℕ} (hj : mid + j < hi)
    (hhi : hi ≤ l.length) : l.getD (mid + j) d0 ∈ (l.drop mid).take (hi - mid) := by
  apply List.mem_iff_getElem.mpr
  refine ⟨j, ?_, ?_⟩
  · rw [List.length_take, List.length_drop]
    omega
  · rw [List.getElem_take, List.getElem_drop, List.getD_eq_getElem _ _ (by omega)]

lemma slice_left_subset {l : List Point} {lo mid : ℕ} :
    ∀ a ∈ (l.drop lo).take (mid - lo), a ∈ l.take mid := by
  intro a ha
  rcases List.mem_iff_getElem.mp ha with ⟨k, hk, rfl⟩
  rw [List.length_take, List.length_drop] at hk
  rw [List.getElem_take, List.getElem_drop]
  apply List.mem_iff_getElem.mpr
  refine ⟨lo + k, ?_, ?_⟩
  · rw [List.length_take]
    omega
  · rw [List.getElem_take]

/-- Anything returned by the band scan is a pair of one point from the left
half and one from the right half, with its squared distance. -/
lemma splitPair_sound {ax : Fin 3} {l : List Point} {mid : ℕ} {midpoint : ℚ}
    {dstar : Option ℚ} {t3 : Point × Point × ℚ}
    (h : splitPair ax l mid midpoint dstar = some t3) :
    ∃ a ∈ l.take mid, ∃ b ∈ l.drop mid, t3 = (a, b, distSq a b) := by
  unfold splitPair at h
  by_cases hg : l.countP (fun p => predLoB dstar midpoint (coord ax p)) = mid ∨
      l.countP (fun p => predHiB dstar midpoint (coord ax p)) = mid
  · rw [if_pos hg] at h
    exact absurd h (by simp)
  · rw [if_neg hg] at h
    have hne : (((l.drop (l.countP (fun p => predLoB dstar midpoint (coord ax p)))).take
        (mid - l.countP (fun p => predLoB dstar midpoint (coord ax p)))).flatMap
          (fun a => ((l.drop mid).take
            (l.countP (fun p => predHiB dstar midpoint (coord ax p)) - mid)).map
              (fun b => (a, b, distSq a b)))) ≠ [] := by
      intro hnil
      rw [hnil] at h
      exact absurd h (by simp [pickMin?])
    rcases pickMin?_spec hne with ⟨t, htmem, heq, _⟩
    rw [heq] at h
    have ht3 : t = t3 := Option.some.inj h
    subst ht3
    rcases List.mem_flatMap.mp htmem with ⟨a, ha, hb⟩
    rcases List.mem_map.mp hb with ⟨b, hbmem, rfl⟩
    exact ⟨a, slice_left_subset a ha, b, (List.take_sublist _ _).subset hbmem, rfl⟩

/-- The band scan finds every cross pair strictly closer than the nonsplit
best: its result is a `some` whose squared distance is at most that of any
such pair. -/
lemma splitPair_complete {ax : Fin 3} {l : List Point} {mid : ℕ} {dn : ℚ} {i j : ℕ}
    (hs : List.Sorted (axLE ax) l) (hmidlt : mid < l.length) (hi : i < mid)
    (hj : mid + j < l.length)
    (hd : distSq (l.getD i d0) (l.getD (mid + j) d0) < dn) :
    ∃ t3, splitPair ax l mid (coord ax (l.getD mid d0)) (some dn) = some t3 ∧
      t3.2.2 ≤ distSq (l.getD i d0) (l.getD (mid + j) d0) := by
  have hca : coord ax (l.getD i d0) ≤ coord ax (l.getD mid d0) :=
    sorted_getD_mono hs (by omega) hmidlt
  have hcb : coord ax (l.getD mid d0) ≤ coord ax (l.getD (mid + j) d0) :=
    sorted_getD_mono hs (by omega) hj
  have haxis : (coord ax (l.getD (mid + j) d0) - coord ax (l.getD i d0)) ^ 2 ≤
      distSq (l.getD i d0) (l.getD (mid + j) d0) := by
    rw [distSq_comm]
    exact coord_sq_le_distSq ax _ _
  have hdcLo : DownClosed ax (fun p => predLoB (some dn) (coord ax (l.getD mid d0)) (coord ax p)) := by
    intro p q hle hq
    simp only [predLoB, decide_eq_true_eq] at hq ⊢
    refine ⟨by linarith [hq.1], lt_of_lt_of_le hq.2 ?_⟩
    apply pow_le_pow_left₀ (by linarith [hq.1])
    linarith
  have hdcHi : DownClosed ax (fun p => predHiB (some dn) (coord ax (l.getD mid d0)) (coord ax p)) := by
    intro p q hle hq
    simp only [predHiB, decide_eq_true_eq] at hq ⊢
    rcases le_or_lt (coord ax p - coord ax (l.getD mid d0)) 0 with hp0 | hp0
    · exact Or.inl hp0
    · rcases hq with hq | hq
      · exact absurd hq (by linarith)
      · refine Or.inr (le_trans ?_ hq)
        apply pow_le_pow_left₀ (by linarith)
        linarith
  have hnotlo : ¬ (fun p => predLoB (some dn) (coord ax (l.getD mid d0)) (coord ax p))
      (l.getD i d0) = true := by
    simp only [predLoB, decide_eq_true_eq, not_and]
    intro h0
    have h1 : coord ax (l.getD mid d0) - coord ax (l.getD i d0) ≤
        coord ax (l.getD (mid + j) d0) - coord ax (l.getD i d0) := by linarith
    have h2 : (coord ax (l.getD mid d0) - coord ax (l.getD i d0)) ^ 2 ≤
        (coord ax (l.getD (mid + j) d0) - coord ax (l.getD i d0)) ^ 2 :=
      pow_le_pow_left₀ (by linarith) h1 2
    have := lt_of_le_of_lt (le_trans h2 haxis) hd
    linarith
  have hhib : (fun p => predHiB (some dn) (coord ax (l.getD mid d0)) (coord ax p))
      (l.getD (mid + j) d0) = true := by
    simp only [predHiB, decide_eq_true_eq]
    refine Or.inr ?_
    have h1 : coord ax (l.getD (mid + j) d0) - coord ax (l.getD mid d0) ≤
        coord ax (l.getD (mid + j) d0) - coord ax (l.getD i d0) := by linarith
    have h2 : (coord ax (l.getD (mid + j) d0) - coord ax (l.getD mid d0)) ^ 2 ≤
        (coord ax (l.getD (mid + j) d0) - coord ax (l.getD i d0)) ^ 2 :=
      pow_le_pow_left₀ (by linarith) h1 2
    exact le_of_lt (lt_of_le_of_lt (le_trans h2 haxis) hd)
  have hlo_le : l.countP
      (fun p => predLoB (some dn) (coord ax (l.getD mid d0)) (coord ax p)) ≤ i :=
    sorted_countP_le hs hdcLo (by omega) hnotlo
  have hhi_gt : mid + j < l.countP
      (fun p => predHiB (some dn) (coord ax (l.getD mid d0)) (coord ax p)) :=
    sorted_countP_ge hs hdcHi hj hhib
  have hhi_len : l.countP
      (fun p => predHiB (some dn) (coord ax (l.getD mid d0)) (coord ax p)) ≤ l.length :=
    List.countP_le_length _
  have hguard : ¬ (l.countP (fun p => predLoB (some dn) (coord ax (l.getD mid d0)) (coord ax p)) = mid ∨
      l.countP (fun p => predHiB (some dn) (coord ax (l.getD mid d0)) (coord ax p)) = mid) := by
    push_neg
    omega
  have hamem : l.getD i d0 ∈
      (l.drop (l.countP (fun p => predLoB (some dn) (coord ax (l.getD mid d0)) (coord ax p)))).take
        (mid - l.countP (fun p => predLoB (some dn) (coord ax (l.getD mid d0)) (coord ax p))) :=
    mem_slice_left hlo_le hi (by omega)
  have hbmem : l.getD (mid + j) d0 ∈ (l.drop mid).take
      (l.countP (fun p => predHiB (some dn) (coord ax (l.getD mid d0)) (coord ax p)) - mid) :=
    mem_slice_right hhi_gt hhi_len
  have hpairmem : (l.getD i d0, l.getD (mid + j) d0, distSq (l.getD i d0) (l.getD (mid + j) d0)) ∈
      (((l.drop (l.countP (fun p => predLoB (some dn) (coord ax (l.getD mid d0)) (coord ax p)))).take
          (mid - l.countP (fun p => predLoB (some dn) (coord ax (l.getD mid d0)) (coord ax p)))).flatMap
        (fun a => ((l.drop mid).take
          (l.countP (fun p => predHiB (some dn) (coord ax (l.getD mid d0)) (coord ax p)) - mid)).map
            (fun b => (a, b, distSq a b)))) :=
    List.mem_flatMap.mpr ⟨_, hamem, List.mem_map.mpr ⟨_, hbmem, rfl⟩⟩
  have hne := List.ne_nil_of_mem hpairmem
  rcases pickMin?_spec hne with ⟨t, htmem, heq, hmin⟩
  refine ⟨t, ?_, hmin _ hpairmem⟩
  unfold splitPair
  rw [if_neg hguard]
  exact heq

/-- `if dist_sq1 < dist_sq2` selection between the two recursive results
(`inf` embedded as `none`). -/
def nnNonsplit (r1 r2 : Option (Point × Point × ℚ)) : Option (Point × Point × ℚ) :=
  match r1, r2 with
  | some t1, some t2 => if t1.2.2 < t2.2.2 then some t1 else some t2
  | some t1, none => some t1
  | none, r2x => r2x

/-- `if dist_sq_nonsplit <= dist_sq_split` selection between the nonsplit
and the split result. -/
def nnDCSelect (ns rs : Option (Point × Point × ℚ)) : Option (Point × Point × ℚ) :=
  match ns, rs with
  | some t1, some t3 => if t1.2.2 ≤ t3.2.2 then some t1 else some t3
  | some t1, none => some t1
  | none, rsx => rsx

/-- `_nearest_neighbors_divide_and_conquer_step` (squared distances; the
nonsplit candidate expression is written out twice — once as the selection
input and once to derive the band width — which is semantically identical
to the Python local variable). -/
def nnDCStep (ax : Fin 3) (l : List Point) : Option (Point × Point × ℚ) :=
  if h2 : l.length < 2 then none
  else if h100 : l.length ≤ 100 then bfStep l
  else
    nnDCSelect
      (nnNonsplit (nnDCStep ax (l.take (l.length / 2)))
        (nnDCStep ax (l.drop (l.length / 2))))
      (splitPair ax l (l.length / 2) (coord ax (l.getD (l.length / 2) d0))
        ((nnNonsplit (nnDCStep ax (l.take (l.length / 2)))
            (nnDCStep ax (l.drop (l.length / 2)))).map (fun t => t.2.2)))
termination_by l.length
decreasing_by
  all_goals
    simp only [List.length_take, List.length_drop]
    omega

/-- `find_nearest_neighbors` (entry point; the Python function finally
takes `dist_sq ** 0.5`, so it returns the square root of the third
component returned here). -/
def find_nearest_neighbors (pts : List Point) : Option (Point × Point × ℚ) :=
  if pts.length < 2 then none
  else nnDCStep (principalAxis pts) (sortPoints (principalAxis pts) pts)

lemma nnNonsplit_spec {l1 l2 : List Point} {r1 r2 : Option (Point × Point × ℚ)}
    (h1 : ∃ p q d, r1 = some (p, q, d) ∧ p ∈ l1 ∧ q ∈ l1 ∧ d = distSq p q ∧
      (d : WithTop ℚ) = bruteMin l1)
    (h2 : ∃ p q d, r2 = some (p, q, d) ∧ p ∈ l2 ∧ q ∈ l2 ∧ d = distSq p q ∧
      (d : WithTop ℚ) = bruteMin l2) :
    ∃ p q d, nnNonsplit r1 r2 = some (p, q, d) ∧ (p ∈ l1 ∨ p ∈ l2) ∧
      (q ∈ l1 ∨ q ∈ l2) ∧ d = distSq p q ∧
      (d : WithTop ℚ) = min (bruteMin l1) (bruteMin l2) := by
  obtain ⟨p1, q1, d1, e1, hp1, hq1, hd1, hm1⟩ := h1
  obtain ⟨p2, q2, d2, e2, hp2, hq2, hd2, hm2⟩ := h2
  rw [e1, e2]
  simp only [nnNonsplit]
  by_cases hdd : d1 < d2
  · rw [if_pos hdd]
    refine ⟨p1, q1, d1, rfl, Or.inl hp1, Or.inl hq1, hd1, ?_⟩
    rw [← hm1, ← hm2]
    exact (min_eq_left (WithTop.coe_le_coe.mpr (le_of_lt hdd))).symm
  · rw [if_neg hdd]
    refine ⟨p2, q2, d2, rfl, Or.inr hp2, Or.inr hq2, hd2, ?_⟩
    rw [← hm1, ← hm2]
    exact (min_eq_right (WithTop.coe_le_coe.mpr (not_lt.mp hdd))).symm

lemma nnDCStep_spec (ax : Fin 3) : ∀ (n : ℕ) (l : List Point), l.length ≤ n →
    List.Sorted (axLE ax) l → 2 ≤ l.length →
    ∃ p q dsq, nnDCStep ax l = some (p, q, dsq) ∧ p ∈ l ∧ q ∈ l ∧
      dsq = distSq p q ∧ (dsq : WithTop ℚ) = bruteMin l := by
  intro n
  induction n with
  | zero =>
    intro l hlen _ h2
    omega
  | succ m ih =>
    intro l hlen hs h2
    by_cases h100 : l.length ≤ 100
    · have hr : nnDCStep ax l = bfStep l := by
        rw [nnDCStep]
        rw [dif_neg (by omega : ¬ l.length < 2), dif_pos h100]
      rw [hr]
      exact bfStep_spec h2
    · have h101 : 100 < l.length := by omega
      have hstep : nnDCStep ax l =
          nnDCSelect
            (nnNonsplit (nnDCStep ax (l.take (l.length / 2)))
              (nnDCStep ax (l.drop (l.length / 2))))
            (splitPair ax l (l.length / 2) (coord ax (l.getD (l.length / 2) d0))
              ((nnNonsplit (nnDCStep ax (l.take (l.length / 2)))
                  (nnDCStep ax (l.drop (l.length / 2)))).map (fun t => t.2.2))) := by
        rw [nnDCStep]
        rw [dif_neg (by omega : ¬ l.length < 2), dif_neg h100]
      have hA_len : (l.take (l.length / 2)).length = l.length / 2 := by
        rw [List.length_take]
        omega
      have hB_len : (l.drop (l.length / 2)).length = l.length - l.length / 2 :=
        List.length_drop _ _
      have hAs : List.Sorted (axLE ax) (l.take (l.length / 2)) :=
        List.Pairwise.sublist (List.take_sublist _ _) hs
      have hBs : List.Sorted (axLE ax) (l.drop (l.length / 2)) :=
        List.Pairwise.sublist (List.drop_sublist _ _) hs
      have hihA := ih (l.take (l.length / 2)) (by omega) hAs (by omega)
      have hihB := ih (l.drop (l.length / 2)) (by omega) hBs (by omega)
      obtain ⟨pn, qn, dn, hnse, hpn, hqn, hdn, hmn⟩ := nnNonsplit_spec hihA hihB
      have hbm : bruteMin l =
          min (dn : WithTop ℚ)
            (minD (crossVals (l.take (l.length / 2)) (l.drop (l.length / 2)))) := by
        conv_lhs => rw [← List.take_append_drop (l.length / 2) l]
        rw [bruteMin_append, ← min_assoc, ← hmn]
      have hpnl : pn ∈ l := by
        rcases hpn with h | h
        · exact (List.take_sublist _ _).subset h
        · exact (List.drop_sublist _ _).subset h
      have hqnl : qn ∈ l := by
        rcases hqn with h | h
        · exact (List.take_sublist _ _).subset h
        · exact (List.drop_sublist _ _).subset h
      rw [hnse] at hstep
      have hmapdn : (some (pn, qn, dn)).map (fun t : Point × Point × ℚ => t.2.2) = some dn := rfl
      rw [hmapdn] at hstep
      rcases le_or_lt (dn : WithTop ℚ)
          (minD (crossVals (l.take (l.length / 2)) (l.drop (l.length / 2)))) with hle | hlt
      · -- the nonsplit pair is globally closest
        have hbml : bruteMin l = (dn : WithTop ℚ) := by
          rw [hbm]
          exact min_eq_left hle
        cases hrs : splitPair ax l (l.length / 2) (coord ax (l.getD (l.length / 2) d0))
            (some dn) with
        | none =>
          rw [hrs] at hstep
          exact ⟨pn, qn, dn, by rw [hstep]; rfl, hpnl, hqnl, hdn, by rw [hbml]⟩
        | some t3 =>
          rw [hrs] at hstep
          rcases splitPair_sound hrs with ⟨a, ha, b, hb, ht3⟩
          have hcross : t3.2.2 ∈ crossVals (l.take (l.length / 2)) (l.drop (l.length / 2)) := by
            apply mem_crossVals.mpr
            exact ⟨a, ha, b, hb, by rw [ht3]⟩
          have hdle : dn ≤ t3.2.2 :=
            WithTop.coe_le_coe.mp (le_trans hle (minD_le_of_mem hcross))
          refine ⟨pn, qn, dn, ?_, hpnl, hqnl, hdn, by rw [hbml]⟩
          rw [hstep]
          simp only [nnDCSelect]
          rw [if_pos hdle]
      · -- a split pair is strictly closer
        have hcne : crossVals (l.take (l.length / 2)) (l.drop (l.length / 2)) ≠ [] := by
          intro hnil
          rw [hnil] at hlt
          exact absurd hlt (by simp [minD])
        rcases minD_attained hcne with ⟨v, hv, hveq⟩
        rcases mem_crossVals.mp hv with ⟨a, ha, b, hb, hvab⟩
        rcases List.mem_iff_getElem.mp ha with ⟨i, hilen, hia⟩
        rcases List.mem_iff_getElem.mp hb with ⟨j, hjlen, hjb⟩
        rw [hA_len] at hilen
        rw [hB_len] at hjlen
        have hagl : l.getD i d0 = a := by
          rw [List.getD_eq_getElem _ _ (by omega), ← hia, List.getElem_take]
        have hbgl : l.getD (l.length / 2 + j) d0 = b := by
          rw [List.getD_eq_getElem _ _ (by omega), ← hjb, List.getElem_drop]
        have hvdn : v < dn := by
          rw [hveq] at hlt
          exact WithTop.coe_lt_coe.mp hlt
        have hdglobal : distSq (l.getD i d0) (l.getD (l.length / 2 + j) d0) < dn := by
          rw [hagl, hbgl, ← hvab]
          exact hvdn
        rcases splitPair_complete hs (by omega) hilen (by omega) hdglobal with ⟨t3, hrs, ht3le⟩
        rw [hrs] at hstep
        rcases splitPair_sound hrs with ⟨a', ha', b', hb', ht3⟩
        have hcross : t3.2.2 ∈ crossVals (l.take (l.length / 2)) (l.drop (l.length / 2)) := by
          apply mem_crossVals.mpr
          exact ⟨a', ha', b', hb', by rw [ht3]⟩
        have hvt3 : v ≤ t3.2.2 := by
          have := minD_le_of_mem hcross
          rw [hveq] at this
          exact WithTop.coe_le_coe.mp this
        have ht3v : t3.2.2 = v := by
          apply le_antisymm _ hvt3
          rw [hagl, hbgl, ← hvab] at ht3le
          exact ht3le
        have hnotle : ¬ dn ≤ t3.2.2 := by
          rw [ht3v]
          exact not_le.mpr hvdn
        refine ⟨t3.1, t3.2.1, t3.2.2, ?_, ?_, ?_, ?_, ?_⟩
        · rw [hstep]
          simp only [nnDCSelect]
          rw [if_neg hnotle]
        · rw [ht3]
          exact (List.take_sublist _ _).subset ha'
        · rw [ht3]
          exact (List.drop_sublist _ _).subset hb'
        · rw [ht3]
        · rw [hbm, ht3v, ← hveq]
          exact (min_eq_right (le_of_lt hlt)).symm

/-- C1: for fewer than 2 points `find_nearest_neighbors` returns
`(None, None, inf)` (embedded as `none`); otherwise it returns two points
of the set together with their squared Euclidean distance, and that
squared distance equals the brute-force minimum squared distance over all
distinct index pairs (hence, taking the square root the Python entry point
applies at the end, the returned Euclidean distance is the brute-force
minimum Euclidean distance). -/
theorem find_nearest_neighbors_spec (pts : List Point) :
    (pts.length < 2 → find_nearest_neighbors pts = none)
    ∧ (2 ≤ pts.length →
      ∃ p q dsq, find_nearest_neighbors pts = some (p, q, dsq) ∧
        p ∈ pts ∧ q ∈ pts ∧ dsq = distSq p q ∧
        (∀ i j : ℕ, i < pts.length → j < pts.length → i ≠ j →
          dsq ≤ distSq (pts.getD i d0) (pts.getD j d0)) ∧
        (∃ i j : ℕ, i < pts.length ∧ j < pts.length ∧ i ≠ j ∧
          dsq = distSq (pts.getD i d0) (pts.getD j d0))) := by
  constructor
  · intro h
    unfold find_nearest_neighbors
    rw [if_pos h]
  · intro h2
    have hperm : (sortPoints (principalAxis pts) pts).Perm pts :=
      List.perm_insertionSort _ pts
    have hsorted : List.Sorted (axLE (principalAxis pts))
        (sortPoints (principalAxis pts) pts) :=
      List.sorted_insertionSort _ pts
    have hlen : (sortPoints (principalAxis pts) pts).length = pts.length :=
      hperm.length_eq
    obtain ⟨p, q, dsq, hr, hp, hq, hd, hm⟩ :=
      nnDCStep_spec (principalAxis pts) (sortPoints (principalAxis pts) pts).length
        (sortPoints (principalAxis pts) pts) (le_refl _) hsorted (by omega)
    have hbm : bruteMin pts = (dsq : WithTop ℚ) := by
      rw [← bruteMin_perm hperm, hm]
    refine ⟨p, q, dsq, ?_, hperm.mem_iff.mp hp, hperm.mem_iff.mp hq, hd, ?_, ?_⟩
    · unfold find_nearest_neighbors
      rw [if_neg (by omega)]
      exact hr
    · intro i j hi hj hij
      have hmem : distSq (pts.getD i d0) (pts.getD j d0) ∈ bruteVals pts :=
        mem_bruteVals.mpr ⟨i, j, hi, hj, fun hc => hij hc.symm, rfl⟩
      have := minD_le_of_mem hmem
      rw [show minD (bruteVals pts) = bruteMin pts from rfl, hbm] at this
      exact WithTop.coe_le_coe.mp this
    · have hne : bruteVals pts ≠ [] := by
        intro hnil
        have hmem : distSq (pts.getD 0 d0) (pts.getD 1 d0) ∈ bruteVals pts :=
          mem_bruteVals.mpr ⟨0, 1, by omega, by omega, by omega, rfl⟩
        rw [hnil] at hmem
        exact List.not_mem_nil _ hmem
      rcases minD_attained hne with ⟨v, hv, hveq⟩
      rcases mem_bruteVals.mp hv with ⟨i, j, hi, hj, hij, hvd⟩
      have : (dsq : WithTop ℚ) = (v : WithTop ℚ) := by
        rw [← hbm]
        exact hveq
      refine ⟨i, j, hi, hj, fun hc => hij hc.symm, ?_⟩
      rw [← hvd]
      exact_mod_cast this

/-- Witness for C1: the empty set yields `none`; the two-point set
`{(0,0,0), (3,4,0)}` yields a concrete closest pair. -/
theorem find_nearest_neighbors_spec_witness :
    find_nearest_neighbors [] = none
    ∧ (∃ p q dsq,
        find_nearest_neighbors
            [(((0 : ℚ), (0 : ℚ), (0 : ℚ)) : Point), (((3 : ℚ), (4 : ℚ), (0 : ℚ)) : Point)] =
          some (p, q, dsq) ∧
        p ∈ [(((0 : ℚ), (0 : ℚ), (0 : ℚ)) : Point), (((3 : ℚ), (4 : ℚ), (0 : ℚ)) : Point)] ∧
        q ∈ [(((0 : ℚ), (0 : ℚ), (0 : ℚ)) : Point), (((3 : ℚ), (4 : ℚ), (0 : ℚ)) : Point)] ∧
        dsq = distSq p q ∧
        (∀ i j : ℕ,
          i < ([(((0 : ℚ), (0 : ℚ), (0 : ℚ)) : Point), (((3 : ℚ), (4 : ℚ), (0 : ℚ)) : Point)] : List Point).length →
          j < ([(((0 : ℚ), (0 : ℚ), (0 : ℚ)) : Point), (((3 : ℚ), (4 : ℚ), (0 : ℚ)) : Point)] : List Point).length →
          i ≠ j →
          dsq ≤ distSq
            (([(((0 : ℚ), (0 : ℚ), (0 : ℚ)) : Point), (((3 : ℚ), (4 : ℚ), (0 : ℚ)) : Point)] : List Point).getD i d0)
            (([(((0 : ℚ), (0 : ℚ), (0 : ℚ)) : Point), (((3 : ℚ), (4 : ℚ), (0 : ℚ)) : Point)] : List Point).getD j d0)) ∧
        (∃ i j : ℕ,
          i < ([(((0 : ℚ), (0 : ℚ), (0 : ℚ)) : Point), (((3 : ℚ), (4 : ℚ), (0 : ℚ)) : Point)] : List Point).length ∧
          j < ([(((0 : ℚ), (0 : ℚ), (0 : ℚ)) : Point), (((3 : ℚ), (4 : ℚ), (0 : ℚ)) : Point)] : List Point).length ∧
          i ≠ j ∧
          dsq = distSq
            (([(((0 : ℚ), (0 : ℚ), (0 : ℚ)) : Point), (((3 : ℚ), (4 : ℚ), (0 : ℚ)) : Point)] : List Point).getD i d0)
            (([(((0 : ℚ), (0 : ℚ), (0 : ℚ)) : Point), (((3 : ℚ), (4 : ℚ), (0 : ℚ)) : Point)] : List Point).getD j d0))) :=
  ⟨(find_nearest_neighbors_spec []).1 (by decide),
   (find_nearest_neighbors_spec
      [(((0 : ℚ), (0 : ℚ), (0 : ℚ)) : Point), (((3 : ℚ), (4 : ℚ), (0 : ℚ)) : Point)]).2
      (by decide)⟩

/-! ### `find_all_point_pairs_closer_than` -/

/-- The body of the `for i, p in enumerate(points)` loop: the inner
`for j, q in enumerate(points[i+1:])` loop records `end = i + j + 1` at
*every* `j` whose axis coordinate reaches `p[axis] + threshold` (there is
no `break`), so after the loop `end` holds the last such `j` (or `None`);
the slice `points[i+1:end]` is then filtered by the true squared
distance. -/
def allPairsRow (ax : Fin 3) (l : List Point) (t : ℚ) (i : ℕ) : List (Point × Point) :=
  match ((List.range (l.length - (i + 1))).filter
      (fun j => decide (coord ax (l.getD i d0) + t ≤ coord ax (l.getD (i + 1 + j) d0)))).getLast? with
  | none =>
    (l.drop (i + 1)).filterMap (fun q =>
      if distSq (l.getD i d0) q < t ^ 2 then some (l.getD i d0, q) else none)
  | some jl =>
    ((l.drop (i + 1)).take ((i + jl + 1) - (i + 1))).filterMap (fun q =>
      if distSq (l.getD i d0) q < t ^ 2 then some (l.getD i d0, q) else none)

/-- `find_all_point_pairs_closer_than(points, threshold)`. -/
def find_all_point_pairs_closer_than (pts : List Point) (t : ℚ) : List (Point × Point) :=
  if pts.length < 2 then []
  else
    (List.range (sortPoints (principalAxis pts) pts).length).flatMap
      (allPairsRow (principalAxis pts) (sortPoints (principalAxis pts) pts) t)

lemma mem_of_getLast?_eq_some {α : Type} {l : List α} {a : α}
    (h : l.getLast? = some a) : a ∈ l := by
  induction l with
  | nil => exact absurd h (by simp)
  | cons b rest ih =>
    match rest with
    | [] =>
      simp only [List.getLast?_singleton] at h
      have hba := Option.some.inj h
      subst hba
      exact List.mem_singleton_self b
    | c :: rest' =>
      rw [List.getLast?_cons_cons] at h
      exact List.mem_cons_of_mem b (ih h)

lemma filterMap_pair (p : Point) (t : ℚ) (s : List Point) :
    s.filterMap (fun q => if distSq p q < t ^ 2 then some (p, q) else none) =
      (s.filter (fun q => decide (distSq p q < t ^ 2))).map (fun q => (p, q)) := by
  induction s with
  | nil => rfl
  | cons a rest ih =>
    rw [List.filterMap_cons, List.filter_cons]
    by_cases hd : distSq p a < t ^ 2
    · rw [if_pos hd, decide_eq_true hd, if_pos rfl, List.map_cons, ih]
    · rw [if_neg hd, decide_eq_false hd, if_neg Bool.false_ne_true, ih]

/-- One row of pairs of the reference enumeration. -/
def pairsRow (l : List Point) (i : ℕ) : List (Point × Point) :=
  (l.drop (i + 1)).map (fun q => (l.getD i d0, q))

lemma flatMap_congr_mem {α β : Type} {ns : List α} {f g : α → List β}
    (h : ∀ a ∈ ns, f a = g a) : ns.flatMap f = ns.flatMap g := by
  induction ns with
  | nil => rfl
  | cons a rest ih =>
    rw [List.flatMap_cons, List.flatMap_cons, h a (List.mem_cons_self a rest),
      ih (fun b hb => h b (List.mem_cons_of_mem a hb))]

lemma flatMap_map_succ {β : Type} (ns : List ℕ) (f : ℕ → List β) :
    (ns.map Nat.succ).flatMap f = ns.flatMap (fun i => f (i + 1)) := by
  induction ns with
  | nil => rfl
  | cons a rest ih =>
    rw [List.map_cons, List.flatMap_cons, List.flatMap_cons, ih]

lemma pairsRow_cons (a : Point) (s : List Point) (i : ℕ) :
    pairsRow (a :: s) (i + 1) = pairsRow s i := by
  unfold pairsRow
  rw [List.getD_cons_succ]
  rfl

lemma pairsList_eq_rows (l : List Point) :
    pairsList l = (List.range l.length).flatMap (pairsRow l) := by
  induction l with
  | nil => rfl
  | cons a s ih =>
    rw [List.length_cons, List.range_succ_eq_map, List.flatMap_cons]
    rw [flatMap_map_succ]
    rw [flatMap_congr_mem (fun i _ => pairsRow_cons a s i), ← ih]
    rw [show pairsRow (a :: s) 0 = s.map (fun q => (a, q)) from rfl]
    rfl

lemma filter_flatMap {α β : Type} (ns : List α) (f : α → List β) (p : β → Bool) :
    (ns.flatMap f).filter p = ns.flatMap (fun a => (f a).filter p) := by
  induction ns with
  | nil => rfl
  | cons a rest ih =>
    rw [List.flatMap_cons, List.flatMap_cons, List.filter_append, ih]

/-- One row of the implementation equals the corresponding filtered row of
the reference enumeration: the only point the truncated slice can omit is
beyond the axis threshold and hence never within the distance threshold. -/
lemma allPairsRow_eq_filter {ax : Fin 3} {l : List Point} {t : ℚ} (ht : 0 ≤ t)
    (hs : List.Sorted (axLE ax) l) (i : ℕ) :
    allPairsRow ax l t i =
      (pairsRow l i).filter (fun pq => decide (distSq pq.1 pq.2 < t ^ 2)) := by
  have hrhs : (pairsRow l i).filter (fun pq => decide (distSq pq.1 pq.2 < t ^ 2)) =
      ((l.drop (i + 1)).filter (fun q => decide (distSq (l.getD i d0) q < t ^ 2))).map
        (fun q => (l.getD i d0, q)) := by
    unfold pairsRow
    rw [List.filter_map]
    rfl
  cases hlast : ((List.range (l.length - (i + 1))).filter
      (fun j => decide (coord ax (l.getD i d0) + t ≤ coord ax (l.getD (i + 1 + j) d0)))).getLast? with
  | none =>
    have himpl : allPairsRow ax l t i =
        (l.drop (i + 1)).filterMap (fun q =>
          if distSq (l.getD i d0) q < t ^ 2 then some (l.getD i d0, q) else none) := by
      unfold allPairsRow
      rw [hlast]
    rw [himpl, hrhs, filterMap_pair]
  | some jl =>
    have himpl : allPairsRow ax l t i =
        ((l.drop (i + 1)).take ((i + jl + 1) - (i + 1))).filterMap (fun q =>
          if distSq (l.getD i d0) q < t ^ 2 then some (l.getD i d0, q) else none) := by
      unfold allPairsRow
      rw [hlast]
    rw [himpl]
    have hmem := mem_of_getLast?_eq_some hlast
    rw [List.mem_filter, List.mem_range] at hmem
    obtain ⟨hjl_lt, hjl_cond⟩ := hmem
    rw [decide_eq_true_eq] at hjl_cond
    rw [filterMap_pair, hrhs]
    congr 1
    have hjl : (i + jl + 1) - (i + 1) = jl := by omega
    rw [hjl]
    have hsplit : l.drop (i + 1) =
        (l.drop (i + 1)).take jl ++ (l.drop (i + 1)).drop jl :=
      (List.take_append_drop jl (l.drop (i + 1))).symm
    conv_rhs => rw [hsplit]
    rw [List.filter_append]
    have hnil : ((l.drop (i + 1)).drop jl).filter
        (fun q => decide (distSq (l.getD i d0) q < t ^ 2)) = [] := by
      rw [List.filter_eq_nil_iff]
      intro q hq
      rcases List.mem_iff_getElem.mp hq with ⟨k, hk, rfl⟩
      rw [List.length_drop, List.length_drop] at hk
      rw [List.getElem_drop, List.getElem_drop]
      simp only [decide_eq_true_eq, not_lt]
      have hidx : i + 1 + (jl + k) < l.length := by omega
      have hcq : coord ax (l.getD (i + 1 + jl) d0) ≤ coord ax (l.getD (i + 1 + (jl + k)) d0) :=
        sorted_getD_mono hs (by omega) hidx
      have hfar : coord ax (l.getD i d0) + t ≤ coord ax (l.getD (i + 1 + (jl + k)) d0) :=
        le_trans hjl_cond hcq
      have ht2 : t ^ 2 ≤ (coord ax (l.getD (i + 1 + (jl + k)) d0) - coord ax (l.getD i d0)) ^ 2 :=
        pow_le_pow_left₀ ht (by linarith) 2
      have haxle : (coord ax (l.getD (i + 1 + (jl + k)) d0) - coord ax (l.getD i d0)) ^ 2 ≤
          distSq (l.getD i d0) (l.getD (i + 1 + (jl + k)) d0) := by
        rw [distSq_comm]
        exact coord_sq_le_distSq ax _ _
      calc t ^ 2 ≤ _ := ht2
        _ ≤ distSq (l.getD i d0) (l.getD (i + 1 + (jl + k)) d0) := haxle
        _ = distSq (l.getD i d0) l[i + 1 + (jl + k)] := by
            rw [List.getD_eq_getElem _ _ hidx]
    rw [hnil, List.append_nil]

lemma pairsList_short {pts : List Point} (h : pts.length < 2) : pairsList pts = [] := by
  match pts with
  | [] => rfl
  | [a] => rfl
  | a :: b :: rest => exact absurd h (by simp)

/-- C2: for every point list and every threshold `t ≥ 0`, the returned
pairs — viewed as unordered pairs — are a permutation of the brute-force
enumeration of all distinct-position pairs of the input with squared
distance strictly below `t²` (equivalently, true Euclidean distance
strictly below `t`): exactly that set, no duplicates, no false negatives;
for fewer than 2 points the result is empty. -/
theorem find_all_point_pairs_closer_than_spec (pts : List Point) (t : ℚ) (ht : 0 ≤ t) :
    ((find_all_point_pairs_closer_than pts t).map Sym2.mk).Perm
      (((pairsList pts).filter (fun pq => decide (distSq pq.1 pq.2 < t ^ 2))).map Sym2.mk)
    ∧ (pts.length < 2 → find_all_point_pairs_closer_than pts t = []) := by
  constructor
  · by_cases h2 : pts.length < 2
    · unfold find_all_point_pairs_closer_than
      rw [if_pos h2, pairsList_short h2]
      exact List.Perm.refl _
    · have hperm : (sortPoints (principalAxis pts) pts).Perm pts :=
        List.perm_insertionSort _ pts
      have hsorted : List.Sorted (axLE (principalAxis pts))
          (sortPoints (principalAxis pts) pts) :=
        List.sorted_insertionSort _ pts
      have himpl : find_all_point_pairs_closer_than pts t =
          (pairsList (sortPoints (principalAxis pts) pts)).filter
            (fun pq => decide (distSq pq.1 pq.2 < t ^ 2)) := by
        unfold find_all_point_pairs_closer_than
        rw [if_neg h2, pairsList_eq_rows, filter_flatMap]
        exact flatMap_congr_mem (fun i _ => allPairsRow_eq_filter ht hsorted i)
      rw [himpl]
      have hfm : ∀ l' : List Point,
          ((pairsList l').filter (fun pq => decide (distSq pq.1 pq.2 < t ^ 2))).map Sym2.mk =
            ((pairsList l').map Sym2.mk).filter (fun z => decide (distSqSym z < t ^ 2)) := by
        intro l'
        rw [List.filter_map]
        have hcomp : (fun z => decide (distSqSym z < t ^ 2)) ∘ Sym2.mk =
            (fun pq : Point × Point => decide (distSq pq.1 pq.2 < t ^ 2)) := by
          funext pq
          simp only [Function.comp_apply, distSqSym_mk]
        rw [hcomp]
      rw [hfm, hfm]
      exact (pairsList_sym2_perm hperm).filter _
  · intro h2
    unfold find_all_point_pairs_closer_than
    rw [if_pos h2]

/-- Witness for C2 at a concrete input: two points at distance 1 and
threshold 2. -/
theorem find_all_point_pairs_closer_than_spec_witness :
    ((find_all_point_pairs_closer_than
        [(((0 : ℚ), (0 : ℚ), (0 : ℚ)) : Point), (((1 : ℚ), (0 : ℚ), (0 : ℚ)) : Point)] 2).map
      Sym2.mk).Perm
      (((pairsList [(((0 : ℚ), (0 : ℚ), (0 : ℚ)) : Point), (((1 : ℚ), (0 : ℚ), (0 : ℚ)) : Point)]).filter
          (fun pq => decide (distSq pq.1 pq.2 < (2 : ℚ) ^ 2))).map Sym2.mk)
    ∧ (([(((0 : ℚ), (0 : ℚ), (0 : ℚ)) : Point), (((1 : ℚ), (0 : ℚ), (0 : ℚ)) : Point)] : List Point).length < 2 →
      find_all_point_pairs_closer_than
        [(((0 : ℚ), (0 : ℚ), (0 : ℚ)) : Point), (((1 : ℚ), (0 : ℚ), (0 : ℚ)) : Point)] 2 = []) :=
  find_all_point_pairs_closer_than_spec
    [(((0 : ℚ), (0 : ℚ), (0 : ℚ)) : Point), (((1 : ℚ), (0 : ℚ), (0 : ℚ)) : Point)] 2 (by decide)

end SbStudio
